import Mathlib

/-! # Primary-key generation and int32 counter allocation

A shallow embedding of `server/services/v1/key_generator.go`.

* Byte slices that hold text (documents, field values, response fragments) are `String`;
  the raw data of a Counter Record is a list of byte values (`List Nat`).
* Go's `uint32` and `int32` are `Nat` and `Int` with explicit wrap-around.
* Every collaborator that lives outside the file (the JSON library, the value
  parser, the key encoder, the UUID source, the clock, the transaction manager)
  is a field of `Env`, a record of state-passing functions over a world `σ`.
* The unbounded `for` loop of `generateInTx` takes a fuel argument and returns
  `none` when the fuel runs out.
-/

namespace Tigris

/-! ## Schema metadata, errors and values -/

/-- Modelled from the spec: the declared types of a field, `schema.FieldType` (§3: string,
UUID, byte, date-time, 64-bit and 32-bit integer, and the types that are no key types). -/
inductive FieldType
  | UnknownType
  | NullType
  | BoolType
  | Int32Type
  | Int64Type
  | DoubleType
  | StringType
  | ByteType
  | UUIDType
  | DateTimeType
  | ArrayType
  | ObjectType
  deriving DecidableEq, Repr

/-- Modelled from the spec: a `schema.Field` (§3), with a name, a declared type and an
auto-generate flag, which the key generator reads through `FieldName`, `Type()` and
`IsAutoGenerated()`. -/
structure Field where
  FieldName : String
  DataType : FieldType
  AutoGenerated : Bool
  deriving DecidableEq, Repr

/-- The method `Field.Type()`. -/
def Field.Type (f : Field) : FieldType := f.DataType

/-- The method `Field.IsAutoGenerated()`. -/
def Field.IsAutoGenerated (f : Field) : Bool := f.AutoGenerated

/-- Modelled from the spec: a `schema.Index` (§3), the ordered fields of the primary key. -/
structure Index where
  Fields : List Field
  deriving DecidableEq, Repr

/-- Modelled from the spec: the codes of `api.Code` the key generator uses (§7). -/
inductive Code
  | OK
  | INVALID_ARGUMENT
  deriving DecidableEq, Repr

/-- A Go `error` value.  `ErrConflictingTransaction` is the sentinel
`kv.ErrConflictingTransaction`, which the code compares errors with; `api` is what
`api.Errorf` builds; `failure` is any other error, identified by its text. -/
inductive GoError
  | ErrConflictingTransaction
  | failure (msg : String)
  | api (code : Code) (msg : String)
  deriving DecidableEq, Repr

/-- The method `Error()`: the text of an error.  The code never asks for the text of the
conflict sentinel. -/
def GoError.Error : GoError → String
  | .ErrConflictingTransaction =>
      "transaction not committed due to conflict with another transaction"
  | .failure msg => msg
  | .api _ msg => msg

/-- Modelled from the spec: `api.Errorf(code, msg)` with no further arguments and a message
without formatting verbs, a failure of that code carrying the message (§7). -/
def apiErrorf (code : Code) (msg : String) : GoError := .api code msg

/-- The call `errors.Wrapf(err, "missing index key column(s) '%s'", name).Error()`:
the formatted message, a colon and a blank, then the text of the wrapped error. -/
def wrapMissingKeyColumn (err : GoError) (name : String) : String :=
  "missing index key column(s) '" ++ name ++ "'" ++ ": " ++ err.Error

/-- Modelled from the spec: a `value.Value`, the typed value of a field (§3), as the
generator builds it with `NewStringValue`, `NewBytesValue` and `NewIntValue`;
`DoubleValue` and `BoolValue` stand for what `value.NewValue` may return for other field
types. -/
inductive Value
  | IntValue (v : Int)
  | StringValue (v : String)
  | BytesValue (v : String)
  | DoubleValue (v : String)
  | BoolValue (v : Bool)
  deriving DecidableEq, Repr

/-- Modelled from the spec: a `keys.Key`, a table name and the ordered index parts (§3). -/
structure Key where
  table : String
  indexParts : List Value
  deriving DecidableEq, Repr

/-- Modelled from the spec: the constructor `keys.NewKey(table, parts...)`. -/
def NewKey (table : String) (parts : List Value) : Key := ⟨table, parts⟩

/-- The value types of `jsonparser.ValueType`. -/
inductive ValueType
  | NotExist
  | String
  | Number
  | Object
  | Array
  | Boolean
  | Null
  | Unknown
  deriving DecidableEq, Repr

/-- What `jsonparser.Get` returns, without the offset the caller drops. -/
structure GetResult where
  value : String
  dataType : ValueType
  err : Option GoError
  deriving DecidableEq, Repr

/-! ## Constants -/

/-- The subspace under which the id counters are stored. -/
def generatorSubspaceKey : String := "generator"

/-- The key part after the table name under which the int32 counter is stored. -/
def int32IdKey : String := "int32_id"

/-- The bytes of `"0"`. -/
def zeroIntStringSlice : String := "0"

/-- Modelled from the spec: the bytes of `uuid.NullUUID.String()`, the textual form of the
all-zero UUID (§4.1). -/
def zeroUUIDStringSlice : String := "00000000-0000-0000-0000-000000000000"

/-- The text of `time.Time{}.Format(time.RFC3339Nano)`, the zero time. -/
def zeroTimeStringSlice : String := "0001-01-01T00:00:00Z"

/-! ## The null / zero detector -/

/-- The function `isNull`: is the value the "zero" value of its type. -/
def isNull (tp : FieldType) (val : String) : Bool :=
  match tp with
  | .Int32Type => val == zeroIntStringSlice
  | .Int64Type => val == zeroIntStringSlice
  | .UUIDType => val == zeroUUIDStringSlice
  | .DateTimeType => val == zeroTimeStringSlice
  | .StringType => val.length == 0
  | .ByteType => val.length == 0
  | _ => false

/-! ## Counter encoding and machine integers -/

/-- Modelled from the spec: `encoding.UInt32ToByte`, the four big-endian bytes of a `uint32`
(§6, the Counter Record is a 4-byte big-endian unsigned integer). -/
def UInt32ToByte (v : Nat) : List Nat :=
  [v / 2 ^ 24 % 256, v / 2 ^ 16 % 256, v / 2 ^ 8 % 256, v % 256]

/-- Modelled from the spec: `encoding.ByteToUInt32`, the `uint32` read big-endian from the
first four bytes (§6).  Go panics on a shorter slice; the model returns 0 there, a case no
record written by `UInt32ToByte` reaches. -/
def ByteToUInt32 : List Nat → Nat
  | b0 :: b1 :: b2 :: b3 :: _ =>
      (b0 % 256) * 2 ^ 24 + (b1 % 256) * 2 ^ 16 + (b2 % 256) * 2 ^ 8 + b3 % 256
  | _ => 0

/-- The conversion `int32(id)` of a `uint32`: the two's complement reading. -/
def toInt32 (u : Nat) : Int :=
  if u % 2 ^ 32 < 2 ^ 31 then ((u % 2 ^ 32 : Nat) : Int) else ((u % 2 ^ 32 : Nat) : Int) - 2 ^ 32

/-- Modelled from the spec: the method `Value.AsInterface()`, the generic form of the value
(§4.4 step 6), which the model keeps as the same sum. -/
def Value.AsInterface (v : Value) : Value := v

/-! ## Collaborators -/

/-- The iterator `tx.Read` returns, as the caller sees it: the row the first `Next`
delivers, when there is one, and the result of `Err()`. -/
structure Iterator where
  next : Option (List Nat)
  err : Option GoError
  deriving DecidableEq, Repr

/-- Modelled from the spec: the Transaction Manager interface (§6), `transaction.Manager`
with the transaction it has open, over a world `σ`: `StartTx`, and `Read`, `Replace`,
`Rollback`, `Commit` of the transaction that the last `StartTx` returned.  Each returns the
error of the call, `none` for `nil`. -/
structure TxManager (σ : Type) where
  StartTx : σ → Option GoError × σ
  Read : Key → σ → Except GoError Iterator × σ
  Replace : Key → List Nat → σ → Option GoError × σ
  Rollback : σ → Option GoError × σ
  Commit : σ → Option GoError × σ

/-- The collaborators of the key generator over a world `σ`: the transaction manager,
`jsonparser.Get` and `jsonparser.Set`, `value.NewValue`, `encoder.EncodeKey`,
`base64.StdEncoding.EncodeToString`, `uuid.NewUUIDAsString`, and `time.Now().UTC()` as
nanoseconds since the epoch with its RFC3339Nano formatting. -/
structure Env (σ : Type) extends TxManager σ where
  jsonGet : String → String → GetResult
  jsonSet : String → String → String → String × Option GoError
  NewValue : FieldType → String → Except GoError Value
  EncodeKey : String → Index → List Value → σ → Except GoError Key × σ
  base64Encode : String → String
  FormatRFC3339Nano : Int → String
  NewUUIDAsString : σ → String × σ
  Now : σ → Int × σ

/-! ## The counter allocator -/

namespace generator

variable {σ : Type}

/-- The method `generator.generateInt`: read the counter of the table, add one, write it
back in the same transaction. -/
def generateInt (E : TxManager σ) (table : String) (w : σ) : (Int × Option GoError) × σ :=
  let key := NewKey generatorSubspaceKey [.BytesValue table, .StringValue int32IdKey]
  match E.Read key w with
  | (.error err, w1) => ((0, some err), w1)
  | (.ok it, w1) =>
    let id : Nat :=
      match it.next with
      | some row => (ByteToUInt32 row + 1) % 2 ^ 32
      | none => 1
    match it.err with
    | some err => ((0, some err), w1)
    | none =>
      match E.Replace key (UInt32ToByte id) w1 with
      | (some err, w2) => ((0, some err), w2)
      | (none, w2) => ((toInt32 id, none), w2)

/-- The method `generator.generateInTx`.  The `for` loop has no bound in the source; here
each iteration uses one unit of fuel and the result is `none` when none is left. -/
def generateInTx (E : TxManager σ) : Nat → String → σ → Option ((Int × Option GoError) × σ)
  | 0, _, _ => none
  | fuel + 1, table, w =>
    match E.StartTx w with
    | (some err, w1) => some ((-1, some err), w1)
    | (none, w1) =>
      match generateInt E table w1 with
      | ((valueI32, err), w2) =>
        let w3 := if err.isSome then (E.Rollback w2).2 else w2
        match E.Commit w3 with
        | (none, w4) => some ((valueI32, none), w4)
        | (some err2, w4) =>
          if err2 ≠ GoError.ErrConflictingTransaction then some ((-1, some err2), w4)
          else generateInTx E fuel table w4

/-- The method `generator.get`: the unquoted JSON text and the typed value of a freshly
generated key of the type of the field. -/
def get (E : Env σ) (fuel : Nat) (table : String) (field : Field) (w : σ) :
    Option (Except GoError (String × Value) × σ) :=
  match field.Type with
  | .StringType | .UUIDType =>
    match E.NewUUIDAsString w with
    | (u, w1) => some (.ok (u, .StringValue u), w1)
  | .ByteType =>
    match E.NewUUIDAsString w with
    | (u, w1) => some (.ok (E.base64Encode u, .BytesValue u), w1)
  | .DateTimeType =>
    match E.Now w with
    | (t, w1) => some (.ok (E.FormatRFC3339Nano t, .StringValue (E.FormatRFC3339Nano t)), w1)
  | .Int64Type =>
    match E.Now w with
    | (t, w1) => some (.ok (toString t, .IntValue t), w1)
  | .Int32Type =>
    match generateInTx E.toTxManager fuel table w with
    | none => none
    | some ((_, some err), w1) => some (.error err, w1)
    | some ((valueI32, none), w1) => some (.ok (toString valueI32, .IntValue valueI32), w1)
  | _ =>
    some (.error (apiErrorf .INVALID_ARGUMENT "unsupported type found in auto-generator"), w)

end generator

/-! ## The key generator -/

/-- The struct `keyGenerator`; its `generator` is the `Env` the methods take. -/
structure keyGenerator where
  document : String
  keysForResp : String
  index : Index
  forceInsert : Bool
  deriving DecidableEq, Repr

/-- The constructor `newKeyGenerator`. -/
def newKeyGenerator (document : String) (index : Index) : keyGenerator :=
  { document := document, keysForResp := "", index := index, forceInsert := false }

namespace keyGenerator

variable {σ : Type}

/-- The method `getKeysForResp`: the response fragment between braces. -/
def getKeysForResp (k : keyGenerator) : String :=
  "\x7b" ++ k.keysForResp ++ "\x7d"

/-- The method `getJsonQuotedValue`: quotes around the value for the text-like types. -/
def getJsonQuotedValue (fieldType : FieldType) (jsonVal : String) : String :=
  match fieldType with
  | .StringType | .UUIDType | .ByteType | .DateTimeType => "\"" ++ jsonVal ++ "\""
  | _ => jsonVal

/-- The method `setKeyInDoc`: the document becomes what `jsonparser.Set` returns. -/
def setKeyInDoc (E : Env σ) (k : keyGenerator) (field : Field) (jsonVal : String) :
    keyGenerator × Option GoError :=
  match E.jsonSet k.document (getJsonQuotedValue field.Type jsonVal) field.FieldName with
  | (doc, err) => ({ k with document := doc }, err)

/-- The method `addKeyToResp`. -/
def addKeyToResp (k : keyGenerator) (field : Field) (jsonVal : String) : keyGenerator :=
  let jsonKeyAndValue := "\"" ++ field.FieldName ++ "\":" ++ getJsonQuotedValue field.Type jsonVal
  if k.keysForResp.length = 0 then
    { k with keysForResp := jsonKeyAndValue }
  else
    { k with keysForResp := (k.keysForResp ++ ",") ++ jsonKeyAndValue }

/-- The local `autoGenerate` of `generate`, from the field and what `jsonparser.Get`
returned for it. -/
def autoGenerate (field : Field) (r : GetResult) : Bool :=
  field.IsAutoGenerated && (r.dataType == .NotExist ||
    (r.err.isNone && (isNull field.Type r.value || r.dataType == .Null)))

/-- The body of the loop of `generate` for one field: the index parts so far extended
by the value of the field, or the error the loop returns with. -/
def generateField (E : Env σ) (fuel : Nat) (table : String) (field : Field)
    (k : keyGenerator) (indexParts : List Value) (w : σ) :
    Option (Except GoError (List Value) × keyGenerator × σ) :=
  let r := E.jsonGet k.document field.FieldName
  match autoGenerate field r, r.err with
  | false, some err =>
    some (.error (apiErrorf .INVALID_ARGUMENT (wrapMissingKeyColumn err field.FieldName)), k, w)
  | true, _ =>
    match generator.get E fuel table field w with
    | none => none
    | some (.error err, w1) => some (.error err, k, w1)
    | some (.ok (jsonVal, v), w1) =>
      match setKeyInDoc E k field jsonVal with
      | (k1, some err) => some (.error err, k1, w1)
      | (k1, none) =>
        let k2 : keyGenerator :=
          if field.Type = .Int64Type ∨ field.Type = .DateTimeType then
            { k1 with forceInsert := true }
          else k1
        some (.ok (indexParts ++ [v.AsInterface]), addKeyToResp k2 field jsonVal, w1)
  | false, none =>
    match E.NewValue field.Type r.value with
    | .error err => some (.error err, k, w)
    | .ok v => some (.ok (indexParts ++ [v.AsInterface]), addKeyToResp k field r.value, w)

/-- The loop of `generate` over the fields of the index, in order. -/
def generateLoop (E : Env σ) (fuel : Nat) (table : String) :
    List Field → keyGenerator → List Value → σ →
    Option (Except GoError (List Value) × keyGenerator × σ)
  | [], k, indexParts, w => some (.ok indexParts, k, w)
  | field :: rest, k, indexParts, w =>
    match generateField E fuel table field k indexParts w with
    | none => none
    | some (.error err, k1, w1) => some (.error err, k1, w1)
    | some (.ok parts, k1, w1) => generateLoop E fuel table rest k1 parts w1

/-- The method `generate`: the loop, then `encoder.EncodeKey` on the collected parts. -/
def generate (E : Env σ) (fuel : Nat) (k : keyGenerator) (table : String) (w : σ) :
    Option (Except GoError Key × keyGenerator × σ) :=
  match generateLoop E fuel table k.index.Fields k [] w with
  | none => none
  | some (.error err, k1, w1) => some (.error err, k1, w1)
  | some (.ok indexParts, k1, w1) =>
    match E.EncodeKey table k.index indexParts w1 with
    | (res, w2) => some (res, k1, w2)

end keyGenerator

open generator keyGenerator

/-! ## A scripted transaction manager

The answers of the store to one caller, transaction by transaction: what a single run of
`generateInTx` can observe of any store, whatever other clients do to it meanwhile. -/

/-- The answers of the store during one transaction: the errors of `StartTx`, `Read`,
`Err()`, `Replace` and `Commit` (`none` for `nil`) and the row `Next` delivers. -/
structure Attempt where
  startTx : Option GoError
  read : Option GoError
  row : Option (List Nat)
  iterErr : Option GoError
  replace : Option GoError
  commit : Option GoError
  deriving DecidableEq, Repr

/-- A scripted store: the answers for the transaction with each number, the number of
transactions started so far, and the rows written with `Replace` so far, newest first. -/
structure TxScript where
  answers : Nat → Attempt
  started : Nat
  written : List (List Nat)

/-- The answers for the transaction that is open. -/
def TxScript.current (s : TxScript) : Attempt := s.answers (s.started - 1)

/-- The transaction manager that answers from the script and counts `StartTx` calls. -/
def scriptedTx : TxManager TxScript where
  StartTx := fun s => ((s.answers s.started).startTx, { s with started := s.started + 1 })
  Read := fun _ s =>
    match s.current.read with
    | some err => (.error err, s)
    | none => (.ok ⟨s.current.row, s.current.iterErr⟩, s)
  Replace := fun _ data s =>
    match s.current.replace with
    | some err => (some err, s)
    | none => (none, { s with written := data :: s.written })
  Rollback := fun s => (none, s)
  Commit := fun s => (s.current.commit, s)

/-- A script from a list of answers; past its end every call succeeds and finds no row. -/
def scriptOf (l : List Attempt) : TxScript :=
  { answers := fun i => l.getD i ⟨none, none, none, none, none, none⟩,
    started := 0, written := [] }

/-! ## A sequential transactional store

Modelled from the spec (§6, §4.3): the transactional store as one sequential caller sees
it when every operation succeeds.  A transaction buffers its writes, reads see the
buffered writes before the committed rows, `Commit` applies the buffer, `Rollback` drops
it. -/

/-- The world of the sequential store: the committed rows, the writes the open transaction
has buffered (newest first), the UUIDs the UUID source hands out with the number handed out
so far, the readings of the clock with the number of readings so far, and the calls the key
encoder has received (newest first). -/
structure World where
  data : Key → Option (List Nat)
  writes : List (Key × List Nat)
  uuidAt : Nat → String
  uuidCount : Nat
  timeAt : Nat → Int
  timeCount : Nat
  encoded : List (String × List Value)

/-- The committed rows after the buffered writes are applied. -/
def applyWrites (data : Key → Option (List Nat)) (writes : List (Key × List Nat)) :
    Key → Option (List Nat) :=
  fun key =>
    match writes.lookup key with
    | some row => some row
    | none => data key

/-- Modelled from the spec: the transaction manager of the sequential store (§6, §4.3), in
which every operation succeeds. -/
def kvTx : TxManager World where
  StartTx := fun w => (none, { w with writes := [] })
  Read := fun key w => (.ok ⟨applyWrites w.data w.writes key, none⟩, w)
  Replace := fun key row w => (none, { w with writes := (key, row) :: w.writes })
  Rollback := fun w => (none, { w with writes := [] })
  Commit := fun w => (none, { w with data := applyWrites w.data w.writes, writes := [] })

/-- The key of the Counter Record of a table, as `generateInt` builds it. -/
def counterKey (table : String) : Key :=
  NewKey generatorSubspaceKey [.BytesValue table, .StringValue int32IdKey]

/-- The value the Counter Record of a table holds: 0 when the record is absent. -/
def counterValue (data : Key → Option (List Nat)) (table : String) : Nat :=
  match data (counterKey table) with
  | some row => ByteToUInt32 row
  | none => 0

/-- The results of `n` calls of `generateInTx` for a table, one after the other, and the
world after the last; `none` when a call runs out of fuel. -/
def sequentialCalls {σ : Type} (E : TxManager σ) (fuel : Nat) (table : String) :
    Nat → σ → Option (List (Int × Option GoError) × σ)
  | 0, w => some ([], w)
  | n + 1, w =>
    match generator.generateInTx E fuel table w with
    | none => none
    | some (r, w1) =>
      match sequentialCalls E fuel table n w1 with
      | none => none
      | some (rs, w2) => some (r :: rs, w2)

/-- A world with no rows and no open transaction, in which nothing has been called yet; the
UUID source hands out the all-zero UUID and the clock reads the epoch. -/
def emptyWorld : World :=
  { data := fun _ => none, writes := [], uuidAt := fun _ => zeroUUIDStringSlice, uuidCount := 0,
    timeAt := fun _ => 0, timeCount := 0, encoded := [] }

/-- A world whose only row is the Counter Record of the table, holding `c`. -/
def worldWithCounter (table : String) (c : Nat) : World :=
  { emptyWorld with
    data := fun key => if key = counterKey table then some (UInt32ToByte c) else none }

/-- The current counter value an attempt reads: the decoded row, 0 when there is no row. -/
def Attempt.counterRead (a : Attempt) : Nat :=
  match a.row with
  | some row => ByteToUInt32 row
  | none => 0

/-- A transaction whose commit reports a conflict after reading the row. -/
def conflictAttempt (row : Option (List Nat)) : Attempt :=
  ⟨none, none, row, none, none, some GoError.ErrConflictingTransaction⟩

/-- A transaction in which every call succeeds, reading the row. -/
def goodAttempt (row : Option (List Nat)) : Attempt :=
  ⟨none, none, row, none, none, none⟩

/-! ## A reference environment

Stand-ins for the libraries the key generator calls, to run the model on concrete
documents: `jsonparser.Get` and `jsonparser.Set` on compact JSON objects (no blanks between
tokens) and a top-level key, `base64.StdEncoding` on ASCII text, `time.Format` with
`time.RFC3339Nano` for times from 1970 on, and the sequential store. -/

/-- The double quote. -/
def quoteChar : Char := Char.ofNat 34

/-- The backslash. -/
def backslashChar : Char := Char.ofNat 92

/-- The opening brace. -/
def openBrace : Char := Char.ofNat 123

/-- The closing brace. -/
def closeBrace : Char := Char.ofNat 125

/-- The text of the JSON value at the front of the input, and what follows it: the value
ends at the first comma or closing bracket outside strings and nested values. -/
def scanValue : List Char → Nat → Bool → List Char → List Char × List Char
  | [], _, _, acc => (acc.reverse, [])
  | c :: rest, depth, inStr, acc =>
    if inStr then
      if c = backslashChar then
        match rest with
        | d :: rest2 => scanValue rest2 depth true (d :: c :: acc)
        | [] => ((c :: acc).reverse, [])
      else if c = quoteChar then scanValue rest depth false (c :: acc)
      else scanValue rest depth true (c :: acc)
    else if c = quoteChar then scanValue rest depth true (c :: acc)
    else if c = openBrace ∨ c = '[' then scanValue rest (depth + 1) false (c :: acc)
    else if c = closeBrace ∨ c = ']' then
      if depth = 0 then (acc.reverse, c :: rest)
      else scanValue rest (depth - 1) false (c :: acc)
    else if c = ',' ∧ depth = 0 then (acc.reverse, c :: rest)
    else scanValue rest depth false (c :: acc)

/-- The members of an object body, each with its key and the text of its value; `none` when
the body is not a comma-separated sequence of `"key":value`. -/
def parseMembers : Nat → List Char → Option (List (String × String))
  | 0, _ => none
  | fuel + 1, cs =>
    match cs with
    | [] => some []
    | q :: rest =>
      if q ≠ quoteChar then none
      else
        let key := rest.takeWhile (fun c => c ≠ quoteChar)
        match rest.dropWhile (fun c => c ≠ quoteChar) with
        | _ :: colon :: afterColon =>
          if colon ≠ ':' then none
          else
            match scanValue afterColon 0 false [] with
            | (val, []) => some [(String.mk key, String.mk val)]
            | (val, sep :: more) =>
              if sep ≠ ',' then none
              else
                match parseMembers fuel more with
                | some ms => some ((String.mk key, String.mk val) :: ms)
                | none => none
        | _ => none

/-- The members of a compact JSON object; `none` when the document is not one. -/
def parseObject (doc : String) : Option (List (String × String)) :=
  match doc.data with
  | [] => none
  | c :: rest =>
    if c = openBrace ∧ rest.getLast? = some closeBrace then
      parseMembers (rest.length + 1) rest.dropLast
    else none

/-- The error `jsonparser.KeyPathNotFoundError`. -/
def KeyPathNotFoundError : GoError := .failure "Key path not found"

/-- The error `jsonparser.UnknownValueTypeError`. -/
def UnknownValueTypeError : GoError := .failure "Unknown value type"

/-- The value and type `jsonparser.Get` reports for the text of a value: a string without
its quotes, the literals, a number, an object or an array. -/
def classifyValue (raw : String) : GetResult :=
  match raw.data with
  | [] => ⟨"", .NotExist, some (.failure "Malformed JSON error")⟩
  | c :: rest =>
    if c = quoteChar then ⟨String.mk rest.dropLast, .String, none⟩
    else if c = openBrace then ⟨raw, .Object, none⟩
    else if c = '[' then ⟨raw, .Array, none⟩
    else if raw = "true" ∨ raw = "false" then ⟨raw, .Boolean, none⟩
    else if raw = "null" then ⟨raw, .Null, none⟩
    else if c.isDigit ∨ c = '-' then ⟨raw, .Number, none⟩
    else ⟨"", .Unknown, some UnknownValueTypeError⟩

/-- The function `jsonparser.Get` for a top-level key of a compact JSON object. -/
def refJsonGet (doc : String) (key : String) : GetResult :=
  match parseObject doc with
  | none => ⟨"", .NotExist, some KeyPathNotFoundError⟩
  | some ms =>
    match ms.lookup key with
    | none => ⟨"", .NotExist, some KeyPathNotFoundError⟩
    | some raw => classifyValue raw

/-- The text of an object with the given members. -/
def renderObject (ms : List (String × String)) : String :=
  String.singleton openBrace ++
    ",".intercalate (ms.map (fun m => "\"" ++ m.1 ++ "\":" ++ m.2)) ++
    String.singleton closeBrace

/-- The function `jsonparser.Set` for a top-level key of a compact JSON object: the value of
the key is replaced where the key exists, and a new member is added at the end
otherwise. -/
def refJsonSet (doc : String) (setValue : String) (key : String) : String × Option GoError :=
  match parseObject doc with
  | none => ("", some KeyPathNotFoundError)
  | some ms =>
    if (ms.lookup key).isSome then
      (renderObject (ms.map (fun m => if m.1 = key then (m.1, setValue) else m)), none)
    else (renderObject (ms ++ [(key, setValue)]), none)

/-- The decimal number a list of digits denotes; `none` when a character is no digit. -/
def parseDigits : List Char → Nat → Option Nat
  | [], acc => some acc
  | c :: rest, acc => if c.isDigit then parseDigits rest (acc * 10 + (c.toNat - 48)) else none

/-- The integer a decimal text denotes, as `strconv.ParseInt` reads it. -/
def parseInt (s : String) : Option Int :=
  match s.data with
  | [] => none
  | c :: rest =>
    if c = '-' then
      (if rest = [] then none else (parseDigits rest 0).map (fun n => -(n : Int)))
    else if c = '+' then
      (if rest = [] then none else (parseDigits rest 0).map (fun n => (n : Int)))
    else (parseDigits (c :: rest) 0).map (fun n => (n : Int))

/-- Modelled from the spec: `value.NewValue`, which parses the raw value according to the
declared type of the field; a malformed or unsupported value is an invalid-argument
failure. -/
def refNewValue (tp : FieldType) (raw : String) : Except GoError Value :=
  match tp with
  | .Int32Type | .Int64Type =>
    match parseInt raw with
    | some i => .ok (.IntValue i)
    | none => .error (apiErrorf .INVALID_ARGUMENT "unsupported value type ")
  | .StringType | .UUIDType | .DateTimeType => .ok (.StringValue raw)
  | .ByteType => .ok (.BytesValue raw)
  | .BoolType =>
    if raw = "true" then .ok (.BoolValue true)
    else if raw = "false" then .ok (.BoolValue false)
    else .error (apiErrorf .INVALID_ARGUMENT "unsupported value type ")
  | .DoubleType => .ok (.DoubleValue raw)
  | _ => .error (apiErrorf .INVALID_ARGUMENT "unsupported value type")

/-- The alphabet of the standard base64 encoding. -/
def base64Alphabet : List Char :=
  "ABCDEFGHIJKLMNOPQRSTUVWXYZabcdefghijklmnopqrstuvwxyz0123456789+/".data

/-- The character of a six-bit group. -/
def base64Char (n : Nat) : Char := base64Alphabet.getD n 'A'

/-- The standard base64 encoding of a list of bytes, with padding. -/
def base64Bytes : List Nat → List Char
  | a :: b :: c :: rest =>
    base64Char (a / 4) :: base64Char (a % 4 * 16 + b / 16) ::
      base64Char (b % 16 * 4 + c / 64) :: base64Char (c % 64) :: base64Bytes rest
  | [a, b] =>
    [base64Char (a / 4), base64Char (a % 4 * 16 + b / 16), base64Char (b % 16 * 4), '=']
  | [a] => [base64Char (a / 4), base64Char (a % 4 * 16), '=', '=']
  | [] => []

/-- The function `base64.StdEncoding.EncodeToString` on ASCII text. -/
def refBase64Encode (s : String) : String :=
  String.mk (base64Bytes (s.data.map Char.toNat))

/-- The decimal text of a number, padded with zeros on the left to the width. -/
def padZeros (width n : Nat) : String :=
  String.mk (List.replicate (width - (toString n).length) '0') ++ toString n

/-- The year, month and day of a day number counted from 1970-01-01. -/
def civilFromDays (days : Nat) : Nat × Nat × Nat :=
  let z := days + 719468
  let era := z / 146097
  let doe := z - era * 146097
  let yoe := (doe - doe / 1460 + doe / 36524 - doe / 146096) / 365
  let doy := doe - (365 * yoe + yoe / 4 - yoe / 100)
  let mp := (5 * doy + 2) / 153
  let d := doy - (153 * mp + 2) / 5 + 1
  let m := if mp < 10 then mp + 3 else mp - 9
  let y := yoe + era * 400
  (if m ≤ 2 then y + 1 else y, m, d)

/-- The digits of the fraction of a second without the trailing zeros, after a dot; empty
when the fraction is zero. -/
def fractionText (nanos : Nat) : String :=
  if nanos = 0 then ""
  else
    "." ++ String.mk (((padZeros 9 nanos).data.reverse.dropWhile (fun c => c = '0')).reverse)

/-- The text `t.UTC().Format(time.RFC3339Nano)` of a time given in nanoseconds since the
epoch, for times from 1970 on. -/
def refFormatRFC3339Nano (t : Int) : String :=
  let n := t.toNat
  let secs := n / 1000000000
  let days := secs / 86400
  let rem := secs % 86400
  match civilFromDays days with
  | (y, m, d) =>
    padZeros 4 y ++ "-" ++ padZeros 2 m ++ "-" ++ padZeros 2 d ++ "T" ++
      padZeros 2 (rem / 3600) ++ ":" ++ padZeros 2 (rem % 3600 / 60) ++ ":" ++
      padZeros 2 (rem % 60) ++ fractionText (n % 1000000000) ++ "Z"

/-- The reference environment over the sequential store. -/
def refEnv : Env World where
  toTxManager := kvTx
  jsonGet := refJsonGet
  jsonSet := refJsonSet
  NewValue := refNewValue
  EncodeKey := fun table _ parts w =>
    (.ok (NewKey table parts), { w with encoded := (table, parts) :: w.encoded })
  base64Encode := refBase64Encode
  FormatRFC3339Nano := refFormatRFC3339Nano
  NewUUIDAsString := fun w => (w.uuidAt w.uuidCount, { w with uuidCount := w.uuidCount + 1 })
  Now := fun w => (w.timeAt w.timeCount, { w with timeCount := w.timeCount + 1 })

/-- The branch of the loop body of `generate` that synthesizes the value of the field
(lines 73 to 82, then 87 and 88): `generator.get`, `setKeyInDoc`, the forced insert mark,
`addKeyToResp` and the new index part. -/
def keyGenerator.synthesizeField {σ : Type} (E : Env σ) (fuel : Nat) (table : String) (field : Field)
    (k : keyGenerator) (indexParts : List Value) (w : σ) :
    Option (Except GoError (List Value) × keyGenerator × σ) :=
  match generator.get E fuel table field w with
  | none => none
  | some (.error err, w1) => some (.error err, k, w1)
  | some (.ok (jsonVal, v), w1) =>
    match setKeyInDoc E k field jsonVal with
    | (k1, some err) => some (.error err, k1, w1)
    | (k1, none) =>
      let k2 : keyGenerator :=
        if field.Type = .Int64Type ∨ field.Type = .DateTimeType then
          { k1 with forceInsert := true }
        else k1
      some (.ok (indexParts ++ [v.AsInterface]), addKeyToResp k2 field jsonVal, w1)

/-- The branch of the loop body of `generate` that uses the value the document supplies
(lines 83 to 88): `value.NewValue` on the raw value, `addKeyToResp` and the new index
part; the world is not touched. -/
def keyGenerator.suppliedField {σ : Type} (E : Env σ) (field : Field) (k : keyGenerator) (indexParts : List Value)
    (w : σ) (raw : String) : Option (Except GoError (List Value) × keyGenerator × σ) :=
  match E.NewValue field.Type raw with
  | .error err => some (.error err, k, w)
  | .ok v => some (.ok (indexParts ++ [v.AsInterface]), addKeyToResp k field raw, w)

/-- The value of a field as the loop body of `generate` takes it, and whether it is
synthesized: the display bytes `generator.get` returns when the field is to be
auto-generated, the raw value `jsonparser.Get` returned otherwise. -/
def fieldOutcome {σ : Type} (E : Env σ) (fuel : Nat) (table : String) (field : Field)
    (k : keyGenerator) (w : σ) : Bool × String :=
  if autoGenerate field (E.jsonGet k.document field.FieldName) then
    (true,
      match generator.get E fuel table field w with
      | some (.ok (jsonVal, _), _) => jsonVal
      | _ => "")
  else (false, (E.jsonGet k.document field.FieldName).value)

/-- The outcomes of the fields along a run of the loop of `generate`, in index order: each
field is looked at in the state the loop has reached before it. -/
def fieldOutcomes {σ : Type} (E : Env σ) (fuel : Nat) (table : String) :
    List Field → keyGenerator → List Value → σ → List (Bool × String)
  | [], _, _, _ => []
  | field :: rest, k, indexParts, w =>
    fieldOutcome E fuel table field k w ::
      match generateField E fuel table field k indexParts w with
      | some (.ok parts, k1, w1) => fieldOutcomes E fuel table rest k1 parts w1
      | _ => []

/-- The document after `jsonparser.Set` has written, in order, the quoted value of each
field marked as synthesized. -/
def applySynthesized {σ : Type} (E : Env σ) (doc : String) (l : List (Field × Bool × String)) :
    String :=
  l.foldl (fun d x =>
    if x.2.1 then (E.jsonSet d (getJsonQuotedValue x.1.Type x.2.2) x.1.FieldName).1 else d) doc

/-- The member of the response fragment for a field: its name between quotes, a colon, and
the value, between quotes for the string, UUID, byte and date-time types. -/
def respMember (f : Field) (v : String) : String :=
  "\"" ++ f.FieldName ++ "\":" ++
    (if f.Type = .StringType ∨ f.Type = .UUIDType ∨ f.Type = .ByteType ∨
        f.Type = .DateTimeType then "\"" ++ v ++ "\"" else v)

/-- A world like `emptyWorld` whose UUID source hands out one fixed UUID. -/
def uuidWorld : World :=
  { emptyWorld with uuidAt := fun _ => "6ba7b810-9dad-11d1-80b4-00c04fd430c8" }

/-- An index with the single auto-generated UUID field `pk`. -/
def pkIndex : Index := ⟨[⟨"pk", .UUIDType, true⟩]⟩

/-- An index with the supplied int64 field `id`, the auto-generated UUID field `pk` and the
supplied string field `name`. -/
def mixedIndex : Index :=
  ⟨[⟨"id", .Int64Type, false⟩, ⟨"pk", .UUIDType, true⟩, ⟨"name", .StringType, false⟩]⟩

/-! ## Concurrent calls of `generateInTx`

`N` calls of `generateInTx` for one table run against one store, and a schedule picks the
call whose next store operation is served.  Each call is the embedded `generateInTx`
itself: a call is kept as the list of answers the store has given it so far, and what it
does next is read off by running `generateInTx` on a transaction manager that replays
those answers and stops at the first operation that has no answer yet.  The store is
modelled from the spec (§4.3): it has optimistic concurrency control, so a commit fails
with `kv.ErrConflictingTransaction` when another transaction has committed a write to a key
after this transaction read it. -/

/-- An operation a call asks of the transaction manager: `StartTx` (line 187), `tx.Read`
(line 211), `tx.Replace` (line 225), `tx.Rollback` (line 194) or `tx.Commit` (line 197). -/
inductive Request
  | StartTx
  | Read (key : Key)
  | Replace (key : Key) (row : List Nat)
  | Rollback
  | Commit
  deriving DecidableEq, Repr

/-- The answer of the transaction manager to an operation: the error, `none` for nil, and
for `tx.Read` the iterator handed out when the error is nil. -/
inductive Answer
  | StartTx (err : Option GoError)
  | Read (err : Option GoError) (it : Iterator)
  | Replace (err : Option GoError)
  | Rollback (err : Option GoError)
  | Commit (err : Option GoError)
  deriving DecidableEq, Repr

/-- The world of a call that is replayed: the answers not yet handed out, and the first
operation for which no answer was left. -/
structure Replay where
  answers : List Answer
  pending : Option Request
  deriving DecidableEq, Repr

/-- The error an operation gets that has no answer yet.  It is not the conflict sentinel, so
no loop of the caller goes on after it. -/
def notAnswered : GoError := .failure "no answer yet"

/-- The transaction manager that replays recorded answers: an operation takes the next
answer when that is an answer to this operation; the first operation that finds none is
recorded as pending, and from then on every operation fails without being recorded. -/
def replayTx : TxManager Replay where
  StartTx := fun s =>
    match s.pending, s.answers with
    | none, .StartTx err :: rest => (err, ⟨rest, none⟩)
    | none, _ => (some notAnswered, ⟨s.answers, some .StartTx⟩)
    | some _, _ => (some notAnswered, s)
  Read := fun key s =>
    match s.pending, s.answers with
    | none, .Read none it :: rest => (.ok it, ⟨rest, none⟩)
    | none, .Read (some err) _ :: rest => (.error err, ⟨rest, none⟩)
    | none, _ => (.error notAnswered, ⟨s.answers, some (.Read key)⟩)
    | some _, _ => (.error notAnswered, s)
  Replace := fun key row s =>
    match s.pending, s.answers with
    | none, .Replace err :: rest => (err, ⟨rest, none⟩)
    | none, _ => (some notAnswered, ⟨s.answers, some (.Replace key row)⟩)
    | some _, _ => (some notAnswered, s)
  Rollback := fun s =>
    match s.pending, s.answers with
    | none, .Rollback err :: rest => (err, ⟨rest, none⟩)
    | none, _ => (some notAnswered, ⟨s.answers, some .Rollback⟩)
    | some _, _ => (some notAnswered, s)
  Commit := fun s =>
    match s.pending, s.answers with
    | none, .Commit err :: rest => (err, ⟨rest, none⟩)
    | none, _ => (some notAnswered, ⟨s.answers, some .Commit⟩)
    | some _, _ => (some notAnswered, s)

/-- The call `generateInTx(ctx, table)` run on the answers it has received so far.  Every
pass of the loop that goes on to another pass has taken at least one answer, so the fuel
is enough for every list of answers. -/
def runCall (table : String) (answers : List Answer) :
    Option ((Int × Option GoError) × Replay) :=
  generateInTx replayTx (answers.length + 1) table ⟨answers, none⟩

/-- The store operation a call is waiting for after the answers it has received; `none`
when the call has returned. -/
def nextRequest (table : String) (answers : List Answer) : Option Request :=
  match runCall table answers with
  | some (_, s) => s.pending
  | none => none

/-- What `generateInTx` has returned to its caller after the answers received, when these
let it run to a `return`. -/
def callResult (table : String) (answers : List Answer) : Option (Int × Option GoError) :=
  match runCall table answers with
  | some (r, s) =>
    match s.pending with
    | none => some r
    | some _ => none
  | none => none

/-- The id a call has returned with a nil error, if it has. -/
def succeededId (table : String) (answers : List Answer) : Option Int :=
  match callResult table answers with
  | some (valueI32, none) => some valueI32
  | _ => none

/-- The store the calls share: the committed rows, and for every key the number of
commits that have written it. -/
structure Store where
  data : Key → Option (List Nat)
  version : Key → Nat

/-- The transaction a call has open at the store: the keys it has read, each with the
number of commits that had written the key when it was read, and the writes it has
buffered. -/
structure OpenTx where
  reads : List (Key × Nat)
  writes : List (Key × List Nat)
  deriving DecidableEq, Repr

/-- Modelled from the spec: the store with optimistic concurrency control serves one
operation of a transaction (§4.3, §6).  No operation fails except `Commit`, which reports
`kv.ErrConflictingTransaction` when a commit has written a key after this transaction
read it; otherwise it applies the buffered writes.  A read sees the transaction's own
writes before the committed rows. -/
def serve (s : Store) (tx : OpenTx) : Request → Store × OpenTx × Answer
  | .StartTx => (s, ⟨[], []⟩, .StartTx none)
  | .Read key =>
    (s, ⟨(key, s.version key) :: tx.reads, tx.writes⟩,
      .Read none ⟨applyWrites s.data tx.writes key, none⟩)
  | .Replace key row => (s, ⟨tx.reads, (key, row) :: tx.writes⟩, .Replace none)
  | .Rollback => (s, ⟨[], []⟩, .Rollback none)
  | .Commit =>
    if tx.reads.all (fun r => decide (s.version r.1 = r.2)) then
      (⟨applyWrites s.data tx.writes,
          fun key => if (tx.writes.lookup key).isSome then s.version key + 1 else s.version key⟩,
        ⟨[], []⟩, .Commit none)
    else (s, ⟨[], []⟩, .Commit (some .ErrConflictingTransaction))

/-- A running call of `generateInTx`: the answers it has received and its transaction at
the store. -/
structure Caller where
  answers : List Answer
  tx : OpenTx
  deriving DecidableEq, Repr

/-- The concurrent calls and the store. -/
structure Concurrent where
  shared : Store
  callers : List Caller

/-- The call with number `i` has its next store operation served and receives the answer;
nothing happens when there is no such call or when the call has returned. -/
def stepConcurrent (table : String) (st : Concurrent) (i : Nat) : Concurrent :=
  match st.callers[i]? with
  | none => st
  | some caller =>
    match nextRequest table caller.answers with
    | none => st
    | some req =>
      ⟨(serve st.shared caller.tx req).1,
        st.callers.set i
          ⟨caller.answers ++ [(serve st.shared caller.tx req).2.2],
            (serve st.shared caller.tx req).2.1⟩⟩

/-- The calls after a schedule, a list of call numbers, one store operation each. -/
def runConcurrent (table : String) (schedule : List Nat) (st : Concurrent) : Concurrent :=
  schedule.foldl (stepConcurrent table) st

/-- The state in which `n` calls of `generateInTx` have been made and none has reached the
store yet. -/
def startConcurrent (data : Key → Option (List Nat)) (n : Nat) : Concurrent :=
  ⟨⟨data, fun _ => 0⟩, List.replicate n ⟨[], ⟨[], []⟩⟩⟩

/-- The ids the calls have returned with a nil error so far, in the order of the calls. -/
def concurrentIds (table : String) (st : Concurrent) : List Int :=
  st.callers.filterMap (fun caller => succeededId table caller.answers)

/-- Have all calls returned an id with a nil error. -/
def allSucceeded (table : String) (st : Concurrent) : Bool :=
  st.callers.all (fun caller => (succeededId table caller.answers).isSome)

/-- The `k`-th of the ids handed out from a counter that held `c`: `int32` of the `uint32`
value `c + 1 + k`. -/
def idAfter (c k : Nat) : Int := toInt32 ((c + 1 + k) % 2 ^ 32)

/-! ### The phases of a call

A summary of the concurrent calls used in the proofs: of each call only the place in
`generateInTx` it has reached is kept.  `phases_follow_calls` shows that the calls above,
driven by the embedded `generateInTx`, go through these phases. -/

/-- Where a call of `generateInTx` stands: before `StartTx` (line 187), before `tx.Read`
(line 211), before `tx.Replace` with the id computed from the row read (line 225), before
`tx.Commit` (line 197), or returned with its id (line 198). -/
inductive Pc
  | atStartTx
  | atRead
  | atReplace (snapshot : Nat) (id : Nat)
  | atCommit (snapshot : Nat) (id : Nat)
  | returned (valueI32 : Int)
  deriving DecidableEq, Repr

/-- The store as the phases see it: the committed rows and the number of commits so far,
each of which has written the Counter Record. -/
structure Shared where
  data : Key → Option (List Nat)
  commits : Nat

/-- The phases of the calls, and the store. -/
structure Calls where
  shared : Shared
  calls : List Pc

/-- The phase a call is in after its next store operation. -/
def stepCall (table : String) (s : Shared) : Pc → Shared × Pc
  | .atStartTx => (s, .atRead)
  | .atRead =>
    let id : Nat :=
      match s.data (NewKey generatorSubspaceKey [.BytesValue table, .StringValue int32IdKey]) with
      | some row => (ByteToUInt32 row + 1) % 2 ^ 32
      | none => 1
    (s, .atReplace s.commits id)
  | .atReplace snapshot id => (s, .atCommit snapshot id)
  | .atCommit snapshot id =>
    if snapshot = s.commits then
      ({ data := applyWrites s.data
            [(NewKey generatorSubspaceKey [.BytesValue table, .StringValue int32IdKey],
              UInt32ToByte id)],
         commits := s.commits + 1 }, .returned (toInt32 id))
    else (s, .atStartTx)
  | .returned v => (s, .returned v)

/-- The call with number `i` takes its next step; nothing happens when there is no such
call. -/
def stepCalls (table : String) (st : Calls) (i : Nat) : Calls :=
  match st.calls[i]? with
  | none => st
  | some pc => ⟨(stepCall table st.shared pc).1, st.calls.set i (stepCall table st.shared pc).2⟩

/-- The phases after the steps of a schedule, a list of call numbers. -/
def runCalls (table : String) (schedule : List Nat) (st : Calls) : Calls :=
  schedule.foldl (stepCalls table) st

/-- The state in which `n` calls are about to start. -/
def startCalls (data : Key → Option (List Nat)) (n : Nat) : Calls :=
  ⟨⟨data, 0⟩, List.replicate n .atStartTx⟩

/-- The id a call has returned, if it has. -/
def Pc.result : Pc → Option Int
  | .returned v => some v
  | _ => none

/-- The ids returned so far, in the order of the calls. -/
def returnedIds (st : Calls) : List Int := st.calls.filterMap Pc.result

/-- Have all calls returned. -/
def allReturned (st : Calls) : Bool := st.calls.all (fun pc => pc.result.isSome)

/-- The invariant of the phases, for a counter that held `c` at the start and `n` calls:
the counter holds `c` plus the number of commits modulo `2^32`, the ids returned are the
first `commits` ids handed out from `c` in some order, and a call that has read the counter
holds a snapshot not above the number of commits and the `uint32` id `c + snapshot + 1`. -/
def CallsInv (table : String) (c n : Nat) (st : Calls) : Prop :=
  st.calls.length = n ∧
  (counterValue st.shared.data table + 1) % 2 ^ 32 = (c + st.shared.commits + 1) % 2 ^ 32 ∧
  List.Perm (returnedIds st) ((List.range st.shared.commits).map (idAfter c)) ∧
  ∀ pc ∈ st.calls, ∀ snapshot id,
    (pc = .atReplace snapshot id ∨ pc = .atCommit snapshot id) →
      snapshot ≤ st.shared.commits ∧ id = (c + snapshot + 1) % 2 ^ 32

/-- The schedule that lets each of `n` calls in turn take six steps in a row: enough for a
call to meet the conflict of a stale snapshot, start over, and commit. -/
def completionSchedule (n : Nat) : List Nat :=
  (List.range n).flatMap (fun i => List.replicate 6 i)

/-- The answers of a transaction that read the row and whose commit reported a conflict. -/
def conflictRound (row : Option (List Nat)) : List Answer :=
  [.StartTx none, .Read none ⟨row, none⟩, .Replace none,
    .Commit (some .ErrConflictingTransaction)]

/-- The id `generateInt` computes from the row it read (lines 216-222). -/
def nextId (row : Option (List Nat)) : Nat :=
  match row with
  | some r => (ByteToUInt32 r + 1) % 2 ^ 32
  | none => 1

/-- A call is in a phase: its answers are those of some transactions that ended in a
conflict, followed by the answers of the transaction it is in, and its transaction at the
store holds the read of the Counter Record, with the snapshot of the phase, and the write of
the phase. -/
def InPhase (table : String) (caller : Caller) : Pc → Prop
  | .atStartTx => ∃ rows : List (Option (List Nat)), caller.answers = rows.flatMap conflictRound
  | .atRead => ∃ rows : List (Option (List Nat)),
      caller.answers = rows.flatMap conflictRound ++ [.StartTx none] ∧
      caller.tx = ⟨[], []⟩
  | .atReplace snapshot id => ∃ (rows : List (Option (List Nat))) (row : Option (List Nat)),
      caller.answers = rows.flatMap conflictRound ++ [.StartTx none, .Read none ⟨row, none⟩] ∧
      caller.tx = ⟨[(counterKey table, snapshot)], []⟩ ∧ id = nextId row
  | .atCommit snapshot id => ∃ (rows : List (Option (List Nat))) (row : Option (List Nat)),
      caller.answers = rows.flatMap conflictRound ++
        [.StartTx none, .Read none ⟨row, none⟩, .Replace none] ∧
      caller.tx = ⟨[(counterKey table, snapshot)], [(counterKey table, UInt32ToByte id)]⟩ ∧
      id = nextId row
  | .returned v => ∃ (rows : List (Option (List Nat))) (row : Option (List Nat)),
      caller.answers = rows.flatMap conflictRound ++
        [.StartTx none, .Read none ⟨row, none⟩, .Replace none, .Commit none] ∧
      v = toInt32 (nextId row)

/-- The store of the phases summarises the store of the calls: the rows are the same, and
the number of commits is the number of commits that have written the Counter Record. -/
def SameStore (table : String) (s : Store) (t : Shared) : Prop :=
  s.data = t.data ∧ s.version (counterKey table) = t.commits

/-- The phases `ab` summarise the calls `st`: the store is the same, and each call is in
the phase with its number. -/
def Summarises (table : String) (st : Concurrent) (ab : Calls) : Prop :=
  SameStore table st.shared ab.shared ∧ st.callers.length = ab.calls.length ∧
  ∀ (i : Nat) (caller : Caller) (pc : Pc),
    st.callers[i]? = some caller → ab.calls[i]? = some pc → InPhase table caller pc

/-- The store operation a call in a phase asks for next. -/
def Pc.request (table : String) : Pc → Option Request
  | .atStartTx => some .StartTx
  | .atRead => some (.Read (counterKey table))
  | .atReplace _ id => some (.Replace (counterKey table) (UInt32ToByte id))
  | .atCommit _ _ => some .Commit
  | .returned _ => none

/-! ## Worlds and indexes for further runs -/

/-- A world like `emptyWorld` whose clock reads 2022-11-04T16:40:00.123456789Z. -/
def clockWorld : World :=
  { emptyWorld with timeAt := fun _ => 1667580000123456789 }

/-- An index with the single auto-generated int64 field `id`. -/
def idIndex : Index := ⟨[⟨"id", .Int64Type, true⟩]⟩

/-- An index with the supplied int64 field `id`, the supplied date-time field `at`, and the
auto-generated string, UUID, byte and int32 fields `s`, `u`, `b` and `n`. -/
def unforcedIndex : Index :=
  ⟨[⟨"id", .Int64Type, false⟩, ⟨"at", .DateTimeType, false⟩, ⟨"s", .StringType, true⟩,
    ⟨"u", .UUIDType, true⟩, ⟨"b", .ByteType, true⟩, ⟨"n", .Int32Type, true⟩]⟩

/-- The lower-case hexadecimal digit of a number below 16. -/
def hexDigit (n : Nat) : Char := "0123456789abcdef".data.getD n '0'

/-- The two hexadecimal digits of a byte. -/
def hexByte (b : Nat) : List Char := [hexDigit (b / 16 % 16), hexDigit (b % 16)]

/-- Modelled from the spec: the canonical string form of a UUID (§4.2) given by its 16 raw
bytes, the hexadecimal digits of the bytes in groups of 4, 2, 2, 2 and 6 bytes, with dashes
between the groups. -/
def uuidString (raw : List Nat) : String :=
  String.mk
    ((raw.take 4).flatMap hexByte ++ '-' :: ((raw.drop 4).take 2).flatMap hexByte ++
      '-' :: ((raw.drop 6).take 2).flatMap hexByte ++
      '-' :: ((raw.drop 8).take 2).flatMap hexByte ++
      '-' :: (raw.drop 10).flatMap hexByte)

/-- The 16 raw bytes of the UUID that `uuidWorld` hands out. -/
def rawUuidBytes : List Nat :=
  [107, 167, 184, 16, 157, 173, 17, 209, 128, 180, 0, 192, 79, 212, 48, 200]

/-- A byte slice as the text that holds one character per byte. -/
def bytesAsText (raw : List Nat) : String := String.mk (raw.map Char.ofNat)

/-- An auto-generated field of byte type. -/
def byteField : Field := ⟨"b", .ByteType, true⟩

end Tigris

/-! # Theorems -/

namespace Tigris

open generator keyGenerator

/-- C8: `isNull tp val` holds exactly when `tp` is string or byte and `val` is empty, or
`tp` is UUID and `val` is the text of the all-zero UUID, or `tp` is date-time and `val` is
the zero time in RFC3339Nano, or `tp` is int32 or int64 and `val` is the single byte `0`;
for every other type it is false for every `val`. -/
theorem isNull_iff_zero_value (tp : FieldType) (val : String) :
    (isNull tp val = true ↔
      ((tp = .StringType ∨ tp = .ByteType) ∧ val = "") ∨
      (tp = .UUIDType ∧ val = zeroUUIDStringSlice) ∨
      (tp = .DateTimeType ∧ val = zeroTimeStringSlice) ∨
      ((tp = .Int32Type ∨ tp = .Int64Type) ∧ val = "0")) ∧
    ((tp ≠ .StringType ∧ tp ≠ .ByteType ∧ tp ≠ .UUIDType ∧ tp ≠ .DateTimeType ∧
        tp ≠ .Int32Type ∧ tp ≠ .Int64Type) → isNull tp val = false) := by
  have hlen : val.length = 0 ↔ val = "" := by
    constructor
    · intro h
      apply String.ext
      exact List.length_eq_zero.mp h
    · intro h
      subst h
      rfl
  cases tp <;> simp [isNull, zeroIntStringSlice, hlen]


/-- Decoding the four bytes of a `uint32` gives the number back. -/
theorem ByteToUInt32_UInt32ToByte (v : Nat) (hv : v < 2 ^ 32) :
    ByteToUInt32 (UInt32ToByte v) = v := by
  simp only [UInt32ToByte, ByteToUInt32]
  omega

/-- Below `2^31` the conversion to `int32` keeps the number. -/
theorem toInt32_of_lt (u : Nat) (hu : u < 2 ^ 31) : toInt32 u = (u : Int) := by
  have h1 : u % 2 ^ 32 = u := Nat.mod_eq_of_lt (by omega)
  simp only [toInt32, h1]
  rw [if_pos hu]

/-- With nothing buffered a transaction reads the committed rows. -/
theorem applyWrites_nil (data : Key → Option (List Nat)) : applyWrites data [] = data := by
  funext key
  simp [applyWrites]

/-- A buffered write is what is read back for its key. -/
theorem applyWrites_single_self (data : Key → Option (List Nat)) (key : Key) (row : List Nat) :
    applyWrites data [(key, row)] key = some row := by
  simp [applyWrites, List.lookup]

/-- One call of `generateInTx` on the sequential store. -/
theorem generateInTx_kvTx (fuel : Nat) (table : String) (w : World) :
    generateInTx kvTx (fuel + 1) table w =
      some ((toInt32 ((counterValue w.data table + 1) % 2 ^ 32), none),
        { w with
          data := applyWrites w.data
            [(counterKey table, UInt32ToByte ((counterValue w.data table + 1) % 2 ^ 32))],
          writes := [] }) := by
  simp only [generateInTx, kvTx, generateInt, applyWrites_nil, counterValue, counterKey]
  cases h : w.data (NewKey generatorSubspaceKey [Value.BytesValue table, Value.StringValue int32IdKey]) <;>
    simp

/-- The counter holds what was last written to its record. -/
theorem counterValue_after_write (data : Key → Option (List Nat)) (table : String) (v : Nat)
    (hv : v < 2 ^ 32) :
    counterValue (applyWrites data [(counterKey table, UInt32ToByte v)]) table = v := by
  simp only [counterValue, applyWrites_single_self]
  exact ByteToUInt32_UInt32ToByte v hv

/-- From a counter holding `c`, `n` calls in a row return `c+1 .. c+n` and leave `c+n`
in the record, as long as `c+n` is below `2^31`. -/
theorem sequentialCalls_kvTx (table : String) (fuel : Nat) :
    ∀ (n : Nat) (w : World) (c : Nat), counterValue w.data table = c → c + n < 2 ^ 31 →
      ∃ w', sequentialCalls kvTx (fuel + 1) table n w =
          some ((List.range n).map (fun (i : Nat) => ((c : Int) + 1 + (i : Int), none)), w') ∧
        (1 ≤ n → w'.data (counterKey table) = some (UInt32ToByte (c + n))) ∧
        counterValue w'.data table = c + n := by
  intro n
  induction n with
  | zero =>
    intro w c hc _
    exact ⟨w, by simp [sequentialCalls], by simp, by simpa using hc⟩
  | succ n ih =>
    intro w c hc hb
    have hmod : (c + 1) % 2 ^ 32 = c + 1 := Nat.mod_eq_of_lt (by omega)
    have hcv : counterValue
        (applyWrites w.data [(counterKey table, UInt32ToByte (c + 1))]) table = c + 1 :=
      counterValue_after_write _ _ _ (by omega)
    obtain ⟨w', hrun, hrec, hval⟩ := ih
      { w with data := applyWrites w.data [(counterKey table, UInt32ToByte (c + 1))],
               writes := [] } (c + 1) hcv (by omega)
    refine ⟨w', ?_, ?_, ?_⟩
    · simp only [sequentialCalls, generateInTx_kvTx, hc, hmod, hrun]
      rw [toInt32_of_lt (c + 1) (by omega), List.range_succ_eq_map]
      simp only [List.map_cons, List.map_map]
      congr 2
      simp
      intro a _
      ring
    · intro _
      rcases Nat.eq_zero_or_pos n with h0 | hpos
      · subst h0
        simp only [sequentialCalls] at hrun
        injection hrun with hrun
        injection hrun with _ hw
        subst hw
        exact applyWrites_single_self _ _ _
      · have := hrec hpos
        rw [this]
        congr 2
        omega
    · rw [hval]; omega

/-- C2: for a table whose Counter Record is absent or holds 0 and `1 ≤ n < 2^31`, on the
sequential store (every operation succeeds) `n` calls of `generateInTx` in a row return
`1, 2, ..., n` in that order, each with a nil error, and the record holds `n` afterwards. -/
theorem fresh_counter_sequence (table : String) (n fuel : Nat) (w : World)
    (hfresh : w.data (counterKey table) = none ∨
      w.data (counterKey table) = some (UInt32ToByte 0))
    (hn1 : 1 ≤ n) (hn : n < 2 ^ 31) (hfuel : 1 ≤ fuel) :
    ∃ w', sequentialCalls kvTx fuel table n w =
        some ((List.range n).map (fun (i : Nat) => ((i : Int) + 1, none)), w') ∧
      w'.data (counterKey table) = some (UInt32ToByte n) := by
  obtain ⟨f, rfl⟩ : ∃ f, fuel = f + 1 := ⟨fuel - 1, by omega⟩
  have hc : counterValue w.data table = 0 := by
    rcases hfresh with h | h
    · simp [counterValue, h]
    · simp only [counterValue, h]
      exact ByteToUInt32_UInt32ToByte 0 (by norm_num)
  obtain ⟨w', hrun, hrec, _⟩ := sequentialCalls_kvTx table f n w 0 hc (by omega)
  refine ⟨w', ?_, ?_⟩
  · rw [hrun]
    congr 2
    simp
    intro a _
    ring
  · simpa using hrec hn1

/-- Witness for C2: table "orders", fresh counter, three calls return 1, 2, 3 and the record
holds 3. -/
theorem fresh_counter_sequence_witness :
    ∃ w', sequentialCalls kvTx 1 "orders" 3 emptyWorld =
        some ([(1, none), (2, none), (3, none)], w') ∧
      w'.data (counterKey "orders") = some [0, 0, 0, 3] := by
  obtain ⟨w', h1, h2⟩ := fresh_counter_sequence "orders" 3 1 emptyWorld (Or.inl rfl)
    (by decide) (by decide) (by decide)
  exact ⟨w', by simpa [List.range, List.range.loop] using h1, by simpa [UInt32ToByte] using h2⟩

/-- Counterexample for C3: from a record holding `2^31 - 1` the call returns `-2^31` while the
record holds `2^31`; and from `2^31 - 2` the call returns `V = 2^31 - 1` while the next call
returns `-2^31`, which is not `V + 1`. -/
theorem monotonic_persistence_breaks_at_int32_limit :
    (generateInTx kvTx 1 "orders" (worldWithCounter "orders" 2147483647)).map
        (fun r => (r.1, counterValue r.2.data "orders")) =
      some ((-2147483648, none), 2147483648) ∧
    ((2147483648 : Nat) : Int) ≠ -2147483648 ∧
    (generateInTx kvTx 1 "orders" (worldWithCounter "orders" 2147483646)).map
        (fun r => r.1) = some (2147483647, none) ∧
    (generateInTx kvTx 1 "orders" (worldWithCounter "orders" 2147483647)).map
        (fun r => r.1) = some (-2147483648, none) ∧
    (-2147483648 : Int) ≠ 2147483647 + 1 := by
  decide

/-- C3, amended: for a record holding `c < 2^32`, on the sequential store a call returns
`V = int32((c + 1) mod 2^32)` with a nil error; the record then holds `V` modulo `2^32`, which
is `V` itself whenever `V ≥ 0` (in particular whenever `c + 1 < 2^31`); and the next call
returns `V + 1` unless `V = 2^31 - 1`. -/
theorem monotonic_persistence_mod (table : String) (fuel c : Nat) (w : World)
    (hrec : w.data (counterKey table) = some (UInt32ToByte c)) (hc : c < 2 ^ 32)
    (hfuel : 1 ≤ fuel) :
    ∃ V w1 V2 w2,
      generateInTx kvTx fuel table w = some ((V, none), w1) ∧
      generateInTx kvTx fuel table w1 = some ((V2, none), w2) ∧
      V = toInt32 ((c + 1) % 2 ^ 32) ∧
      w1.data (counterKey table) = some (UInt32ToByte ((c + 1) % 2 ^ 32)) ∧
      (counterValue w1.data table : Int) = V % 2 ^ 32 ∧
      (0 ≤ V → (counterValue w1.data table : Int) = V) ∧
      (c + 1 < 2 ^ 31 → V = (c : Int) + 1 ∧ (counterValue w1.data table : Int) = V) ∧
      (V ≠ 2 ^ 31 - 1 → V2 = V + 1) := by
  obtain ⟨f, rfl⟩ : ∃ f, fuel = f + 1 := ⟨fuel - 1, by omega⟩
  have hcv : counterValue w.data table = c := by
    simp only [counterValue, hrec]
    exact ByteToUInt32_UInt32ToByte c hc
  have hlt : (c + 1) % 2 ^ 32 < 2 ^ 32 := Nat.mod_lt _ (by norm_num)
  have hcv1 : counterValue
      (applyWrites w.data [(counterKey table, UInt32ToByte ((c + 1) % 2 ^ 32))]) table =
      (c + 1) % 2 ^ 32 := counterValue_after_write _ _ _ hlt
  have h1 := generateInTx_kvTx f table w
  rw [hcv] at h1
  have h2 := generateInTx_kvTx f table
    ({ w with
        data := applyWrites w.data [(counterKey table, UInt32ToByte ((c + 1) % 2 ^ 32))],
        writes := [] } : World)
  rw [hcv1] at h2
  refine ⟨_, _, _, _, h1, h2, ?_, ?_, ?_, ?_, ?_, ?_⟩
  · rfl
  · exact applyWrites_single_self _ _ _
  · simp only [hcv1, toInt32]
    split <;> omega
  · simp only [hcv1, toInt32]
    split <;> omega
  · intro h
    simp only [hcv1, toInt32]
    constructor <;> split <;> omega
  · simp only [hcv1, toInt32]
    intro h
    split at h <;> split <;> omega

/-- Witness for C3 as amended: a record holding 41; the call returns 42, the record holds 42,
the next call returns 43. -/
theorem monotonic_persistence_mod_witness :
    ∃ V w1 V2 w2,
      generateInTx kvTx 1 "orders" (worldWithCounter "orders" 41) = some ((V, none), w1) ∧
      generateInTx kvTx 1 "orders" w1 = some ((V2, none), w2) ∧
      V = 42 ∧ w1.data (counterKey "orders") = some [0, 0, 0, 42] ∧ V2 = 43 := by
  obtain ⟨V, w1, V2, w2, h1, h2, h3, h4, _, _, h7, h8⟩ :=
    monotonic_persistence_mod "orders" 1 41 (worldWithCounter "orders" 41)
      (by simp [worldWithCounter]) (by norm_num) (by decide)
  have hV : V = 42 := by simpa using (h7 (by norm_num)).1
  refine ⟨V, w1, V2, w2, h1, h2, hV, ?_, ?_⟩
  · simpa [UInt32ToByte] using h4
  · have := h8 (by rw [hV]; norm_num)
    rw [this, hV]; norm_num

/-- What `StartTx` of the scripted manager returns. -/
theorem scriptedTx_StartTx (s : TxScript) :
    scriptedTx.StartTx s = ((s.answers s.started).startTx, { s with started := s.started + 1 }) :=
  rfl

/-- What `Rollback` of the scripted manager returns. -/
theorem scriptedTx_Rollback (s : TxScript) : scriptedTx.Rollback s = (none, s) := rfl

/-- What `Commit` of the scripted manager returns. -/
theorem scriptedTx_Commit (s : TxScript) : scriptedTx.Commit s = (s.current.commit, s) := rfl

/-- The method `generateInt` starts no transaction and leaves the script as it is. -/
theorem generateInt_scripted_frame (table : String) (s : TxScript) :
    (generateInt scriptedTx table s).2.answers = s.answers ∧
    (generateInt scriptedTx table s).2.started = s.started := by
  simp only [generateInt, scriptedTx]
  cases s.current.read <;> simp only []
  · cases s.current.iterErr <;> simp only []
    · cases s.current.replace <;> simp
    · simp
  · simp

/-- When read, iteration and write succeed, `generateInt` returns the counter read plus one,
as a `uint32` converted to `int32`. -/
theorem generateInt_scripted_ok (table : String) (s : TxScript)
    (hread : s.current.read = none) (hiter : s.current.iterErr = none)
    (hrep : s.current.replace = none) :
    (generateInt scriptedTx table s).1 =
      (toInt32 ((s.current.counterRead + 1) % 2 ^ 32), none) := by
  simp only [generateInt, scriptedTx, hread, hiter, hrep, Attempt.counterRead]
  cases s.current.row <;> rfl

/-- One iteration of the loop of `generateInTx` on the scripted manager. -/
theorem generateInTx_scripted_step (fuel : Nat) (table : String) (s : TxScript) :
    generateInTx scriptedTx (fuel + 1) table s =
      match (s.answers s.started).startTx with
      | some err => some ((-1, some err), { s with started := s.started + 1 })
      | none =>
        match (s.answers s.started).commit with
        | none =>
          some (((generateInt scriptedTx table { s with started := s.started + 1 }).1.1, none),
            (generateInt scriptedTx table { s with started := s.started + 1 }).2)
        | some err =>
          if err ≠ GoError.ErrConflictingTransaction then
            some ((-1, some err), (generateInt scriptedTx table { s with started := s.started + 1 }).2)
          else
            generateInTx scriptedTx fuel table
              (generateInt scriptedTx table { s with started := s.started + 1 }).2 := by
  have hf := generateInt_scripted_frame table { s with started := s.started + 1 }
  rw [generateInTx]
  simp only [scriptedTx_StartTx, scriptedTx_Rollback, scriptedTx_Commit, ite_self]
  cases hs : (s.answers s.started).startTx with
  | some err => simp
  | none =>
    simp only []
    generalize generateInt scriptedTx table { s with started := s.started + 1 } = r at hf ⊢
    obtain ⟨⟨v, e⟩, t⟩ := r
    have hcur : t.current.commit = (s.answers s.started).commit := by
      simp only at hf
      simp [TxScript.current, hf.1, hf.2]
    simp only [hcur]
    cases (s.answers s.started).commit <;> simp

/-- After `k` conflicting commits and one transaction that succeeds, `generateInTx` returns
the id of that transaction, having started `k + 1` transactions. -/
theorem generateInTx_scripted_retries (table : String) :
    ∀ (k fuel : Nat) (s : TxScript),
      (∀ i, i < k → (s.answers (s.started + i)).startTx = none ∧
        (s.answers (s.started + i)).commit = some GoError.ErrConflictingTransaction) →
      (s.answers (s.started + k)).startTx = none →
      (s.answers (s.started + k)).read = none →
      (s.answers (s.started + k)).iterErr = none →
      (s.answers (s.started + k)).replace = none →
      (s.answers (s.started + k)).commit = none →
      k < fuel →
      ∃ s', generateInTx scriptedTx fuel table s =
          some ((toInt32 (((s.answers (s.started + k)).counterRead + 1) % 2 ^ 32), none), s') ∧
        s'.started = s.started + (k + 1) ∧ s'.answers = s.answers := by
  intro k
  induction k with
  | zero =>
    intro fuel s _ hst hrd hit hrp hcm hfuel
    obtain ⟨f, rfl⟩ : ∃ f, fuel = f + 1 := ⟨fuel - 1, by omega⟩
    simp only [Nat.add_zero] at hst hrd hit hrp hcm
    have hcur : ({ s with started := s.started + 1 } : TxScript).current =
        s.answers s.started := by simp [TxScript.current]
    have hok := generateInt_scripted_ok table { s with started := s.started + 1 }
      (by rw [hcur]; exact hrd) (by rw [hcur]; exact hit) (by rw [hcur]; exact hrp)
    have hf := generateInt_scripted_frame table { s with started := s.started + 1 }
    rw [hcur] at hok
    refine ⟨_, ?_, hf.2, hf.1⟩
    rw [generateInTx_scripted_step, hst, hcm]
    simp only [hok, Nat.add_zero]
  | succ k ih =>
    intro fuel s hconf hst hrd hit hrp hcm hfuel
    obtain ⟨f, rfl⟩ : ∃ f, fuel = f + 1 := ⟨fuel - 1, by omega⟩
    have h0 := hconf 0 (by omega)
    simp only [Nat.add_zero] at h0
    have hf := generateInt_scripted_frame table { s with started := s.started + 1 }
    simp only at hf
    have hidx : ∀ i, s.started + 1 + i = s.started + (i + 1) := by intro i; omega
    obtain ⟨s', hrun, hstarted, hans⟩ :=
      ih f (generateInt scriptedTx table { s with started := s.started + 1 }).2
        (by
          intro i hi
          rw [hf.1, hf.2, hidx]
          exact hconf (i + 1) (by omega))
        (by rw [hf.1, hf.2, hidx]; exact hst)
        (by rw [hf.1, hf.2, hidx]; exact hrd)
        (by rw [hf.1, hf.2, hidx]; exact hit)
        (by rw [hf.1, hf.2, hidx]; exact hrp)
        (by rw [hf.1, hf.2, hidx]; exact hcm)
        (by omega)
    rw [hf.1, hf.2, hidx] at hrun
    refine ⟨s', ?_, ?_, ?_⟩
    · rw [generateInTx_scripted_step, h0.1, h0.2]
      simpa using hrun
    · rw [hstarted, hf.2]; omega
    · rw [hans, hf.1]

/-- An error `generateInTx` returns is the error of the last `StartTx`, or the error of the
last `Commit` and then no conflict. -/
theorem generateInTx_scripted_error (table : String) :
    ∀ (fuel : Nat) (s s' : TxScript) (v : Int) (e : GoError),
      generateInTx scriptedTx fuel table s = some ((v, some e), s') →
      s'.answers = s.answers ∧ s.started < s'.started ∧
      ((s.answers (s'.started - 1)).startTx = some e ∨
        ((s.answers (s'.started - 1)).commit = some e ∧
          e ≠ GoError.ErrConflictingTransaction)) := by
  intro fuel
  induction fuel with
  | zero =>
    intro s s' v e h
    simp [generateInTx] at h
  | succ f ih =>
    intro s s' v e h
    have hf := generateInt_scripted_frame table { s with started := s.started + 1 }
    simp only at hf
    rw [generateInTx_scripted_step] at h
    cases hst : (s.answers s.started).startTx with
    | some err =>
      rw [hst] at h
      simp only [Option.some.injEq, Prod.mk.injEq] at h
      obtain ⟨⟨_, he⟩, hs'⟩ := h
      subst hs'
      subst he
      simp [hst]
    | none =>
      rw [hst] at h
      cases hcm : (s.answers s.started).commit with
      | none =>
        rw [hcm] at h
        simp at h
      | some err =>
        rw [hcm] at h
        simp only at h
        by_cases hne : err = GoError.ErrConflictingTransaction
        · rw [if_neg (by simpa using hne)] at h
          obtain ⟨h1, h2, h3⟩ := ih _ _ _ _ h
          rw [hf.1] at h1 h3
          rw [hf.2] at h2
          exact ⟨h1, by omega, h3⟩
        · rw [if_pos hne] at h
          simp only [Option.some.injEq, Prod.mk.injEq] at h
          obtain ⟨⟨_, he⟩, hs'⟩ := h
          subst hs'
          subst he
          refine ⟨hf.1, by rw [hf.2]; omega, Or.inr ⟨?_, hne⟩⟩
          rw [hf.2]
          simpa using hcm

/-- A commit error other than a conflict is returned as it is, with the value -1, and no
further transaction is started. -/
theorem commit_error_surfaced (table : String) (s : TxScript) (fuel : Nat) (e : GoError)
    (hst : (s.answers s.started).startTx = none)
    (hcm : (s.answers s.started).commit = some e)
    (hne : e ≠ GoError.ErrConflictingTransaction) :
    ∃ s', generateInTx scriptedTx (fuel + 1) table s = some ((-1, some e), s') ∧
      s'.started = s.started + 1 := by
  have hf := generateInt_scripted_frame table { s with started := s.started + 1 }
  refine ⟨_, ?_, hf.2⟩
  rw [generateInTx_scripted_step, hst, hcm]
  simp [hne]

/-- C4, the code at the failing inputs: when `Read`, `Err()` or `Replace` fails and the
`Commit` that follows the rollback returns nil, `generateInTx` returns the id 0 with a nil
error; when that `Commit` fails with another error, the caller gets that error and not the
one `generateInt` returned. -/
theorem generateInt_error_not_surfaced :
    (generateInTx scriptedTx 5 "orders"
        (scriptOf [⟨none, some (.failure "read failed"), none, none, none, none⟩])).map
      (fun r => (r.1, r.2.started)) = some ((0, none), 1) ∧
    (generateInTx scriptedTx 5 "orders"
        (scriptOf [⟨none, some (.failure "read failed"), none, none, none,
          some (.failure "session is gone")⟩])).map
      (fun r => (r.1, r.2.started)) = some ((-1, some (.failure "session is gone")), 1) ∧
    (generateInTx scriptedTx 5 "orders"
        (scriptOf [⟨none, none, some [0, 0, 0, 7], some (.failure "iterator failed"), none,
          none⟩])).map
      (fun r => (r.1, r.2.started)) = some ((0, none), 1) ∧
    (generateInTx scriptedTx 5 "orders"
        (scriptOf [⟨none, none, some [0, 0, 0, 7], none, some (.failure "write failed"),
          none⟩])).map
      (fun r => (r.1, r.2.started)) = some ((0, none), 1) := by
  decide

/-- Counterexample for C5: the first transaction reads a counter of `2^31 - 2` and its
commit reports a conflict, the second reads `2^31 - 1` and commits.  The call starts two
transactions and returns, with a nil error, `-2^31`, which is not the counter read in the
second transaction plus one. -/
theorem retried_id_wraps_at_int32_limit :
    (generateInTx scriptedTx 2 "orders"
        (scriptOf [conflictAttempt (some [127, 255, 255, 254]),
          goodAttempt (some [127, 255, 255, 255])])).map
      (fun r => (r.1, r.2.started)) = some ((-2147483648, none), 2) ∧
    (goodAttempt (some [127, 255, 255, 255])).counterRead = 2147483647 ∧
    (-2147483648 : Int) ≠ ((goodAttempt (some [127, 255, 255, 255])).counterRead : Int) + 1 := by
  decide

/-- C5, amended: if the first `k` transactions of a call start and their commits fail with
`kv.ErrConflictingTransaction`, and transaction `k + 1` starts, reads, writes and commits
without error, then with fuel above `k` the call returns with a nil error the id that
transaction computed, `int32` of the counter it read plus one modulo `2^32` (the counter plus
one itself when that is below `2^31`), and has started exactly `k + 1` transactions.  And an
error the call returns is never a conflict reported by `Commit`: it is the error of the last
`StartTx`, or the error of the last `Commit` and different from
`kv.ErrConflictingTransaction`. -/
theorem conflicts_retried_never_surfaced (table : String) (s : TxScript) (k fuel : Nat)
    (hconf : ∀ i, i < k → (s.answers (s.started + i)).startTx = none ∧
      (s.answers (s.started + i)).commit = some GoError.ErrConflictingTransaction)
    (hgood : (s.answers (s.started + k)).startTx = none ∧
      (s.answers (s.started + k)).read = none ∧
      (s.answers (s.started + k)).iterErr = none ∧
      (s.answers (s.started + k)).replace = none ∧
      (s.answers (s.started + k)).commit = none)
    (hfuel : k < fuel) :
    (∃ s', generateInTx scriptedTx fuel table s =
        some ((toInt32 (((s.answers (s.started + k)).counterRead + 1) % 2 ^ 32), none), s') ∧
      s'.started = s.started + (k + 1)) ∧
    ((s.answers (s.started + k)).counterRead + 1 < 2 ^ 31 →
      toInt32 (((s.answers (s.started + k)).counterRead + 1) % 2 ^ 32) =
        ((s.answers (s.started + k)).counterRead : Int) + 1) ∧
    (∀ (fuel2 : Nat) (t t' : TxScript) (v : Int) (e : GoError),
      generateInTx scriptedTx fuel2 table t = some ((v, some e), t') →
      (t.answers (t'.started - 1)).startTx = some e ∨
        ((t.answers (t'.started - 1)).commit = some e ∧
          e ≠ GoError.ErrConflictingTransaction)) := by
  obtain ⟨hst, hrd, hit, hrp, hcm⟩ := hgood
  obtain ⟨s', hrun, hstarted, _⟩ :=
    generateInTx_scripted_retries table k fuel s hconf hst hrd hit hrp hcm hfuel
  refine ⟨⟨s', hrun, hstarted⟩, ?_, ?_⟩
  · intro hlt
    rw [Nat.mod_eq_of_lt (by omega), toInt32_of_lt _ hlt]
    push_cast
    rfl
  · intro fuel2 t t' v e h
    exact (generateInTx_scripted_error table fuel2 t t' v e h).2.2

/-- Witness for C5: two conflicting commits that read 5 and 6, then a transaction that reads 7
and commits: the call returns 8 and has started 3 transactions. -/
theorem conflicts_retried_never_surfaced_witness :
    ∃ s', generateInTx scriptedTx 3 "orders"
        (scriptOf [conflictAttempt (some [0, 0, 0, 5]), conflictAttempt (some [0, 0, 0, 6]),
          goodAttempt (some [0, 0, 0, 7])]) = some ((8, none), s') ∧
      s'.started = 3 := by
  obtain ⟨⟨s', h1, h2⟩, _, _⟩ := conflicts_retried_never_surfaced "orders"
    (scriptOf [conflictAttempt (some [0, 0, 0, 5]), conflictAttempt (some [0, 0, 0, 6]),
      goodAttempt (some [0, 0, 0, 7])]) 2 3 (by decide) (by decide) (by decide)
  exact ⟨s', h1, h2⟩

/-- C6: in the loop body of `generate` the field is synthesized exactly when it is flagged
auto-generate and is missing from the document (`jsonparser.Get` reports `NotExist`), or is
read without error as JSON null, or is read without error with a raw value for which
`isNull` holds.  In each of these cases the body is the synthesizing branch, which starts
with `generator.get`; otherwise it is the missing-column error or the branch that parses
the supplied value, neither of which calls `generator.get` nor touches the world; a field
that is not flagged is never synthesized. -/
theorem absence_decides_synthesis {σ : Type} (E : Env σ) (fuel : Nat) (table : String)
    (field : Field) (k : keyGenerator) (indexParts : List Value) (w : σ) :
    (autoGenerate field (E.jsonGet k.document field.FieldName) = true ↔
      field.IsAutoGenerated = true ∧
        ((E.jsonGet k.document field.FieldName).dataType = .NotExist ∨
          ((E.jsonGet k.document field.FieldName).err = none ∧
            (E.jsonGet k.document field.FieldName).dataType = .Null) ∨
          ((E.jsonGet k.document field.FieldName).err = none ∧
            isNull field.Type (E.jsonGet k.document field.FieldName).value = true))) ∧
    (autoGenerate field (E.jsonGet k.document field.FieldName) = true →
      generateField E fuel table field k indexParts w =
        synthesizeField E fuel table field k indexParts w) ∧
    (autoGenerate field (E.jsonGet k.document field.FieldName) = false →
      generateField E fuel table field k indexParts w =
        match (E.jsonGet k.document field.FieldName).err with
        | some err =>
          some (.error (apiErrorf .INVALID_ARGUMENT
            (wrapMissingKeyColumn err field.FieldName)), k, w)
        | none =>
          suppliedField E field k indexParts w (E.jsonGet k.document field.FieldName).value) ∧
    (field.IsAutoGenerated = false →
      autoGenerate field (E.jsonGet k.document field.FieldName) = false) := by
  refine ⟨?_, ?_, ?_, ?_⟩
  · simp only [autoGenerate, Bool.and_eq_true, Bool.or_eq_true, beq_iff_eq,
      Option.isNone_iff_eq_none]
    tauto
  · intro h
    simp only [generateField, h, synthesizeField]
  · intro h
    simp only [generateField, h, suppliedField]
    cases (E.jsonGet k.document field.FieldName).err <;> rfl
  · intro h
    simp [autoGenerate, h]

/-- The loop of `generate` over a list of fields followed by another is the loop over the
first, then, when that succeeds, the loop over the second. -/
theorem generateLoop_append {σ : Type} (E : Env σ) (fuel : Nat) (table : String) :
    ∀ (pre rest : List Field) (k : keyGenerator) (indexParts : List Value) (w : σ),
      generateLoop E fuel table (pre ++ rest) k indexParts w =
        match generateLoop E fuel table pre k indexParts w with
        | none => none
        | some (.error err, k1, w1) => some (.error err, k1, w1)
        | some (.ok parts, k1, w1) => generateLoop E fuel table rest k1 parts w1 := by
  intro pre
  induction pre with
  | nil => intro rest k indexParts w; simp [generateLoop]
  | cons f pre ih =>
    intro rest k indexParts w
    simp only [List.cons_append, generateLoop]
    cases h : generateField E fuel table f k indexParts w with
    | none => rfl
    | some r =>
      obtain ⟨res, k1, w1⟩ := r
      cases res with
      | error err => rfl
      | ok parts => exact ih rest k1 parts w1

/-- C7: when the loop of `generate` reaches a field that is not flagged auto-generate and
`jsonparser.Get` fails for it with `err`, `generate` returns no key but the error
`INVALID_ARGUMENT` whose message is `missing index key column(s) '<name>': <err>`, which
contains the name of the field; the key generator and the world are the ones the loop had
reached, so nothing was synthesized for the field and the key encoder was not called. -/
theorem missing_key_column {σ : Type} (E : Env σ) (fuel : Nat) (table : String)
    (k k1 : keyGenerator) (pre post : List Field) (field : Field) (parts : List Value)
    (w w1 : σ) (err : GoError)
    (hidx : k.index.Fields = pre ++ field :: post)
    (hpre : generateLoop E fuel table pre k [] w = some (.ok parts, k1, w1))
    (hflag : field.IsAutoGenerated = false)
    (herr : (E.jsonGet k1.document field.FieldName).err = some err) :
    generate E fuel k table w =
      some (.error (.api .INVALID_ARGUMENT
        ("missing index key column(s) '" ++ field.FieldName ++ "'" ++ ": " ++ err.Error)),
        k1, w1) ∧
    ∃ a b, "missing index key column(s) '" ++ field.FieldName ++ "'" ++ ": " ++ err.Error =
      a ++ field.FieldName ++ b := by
  constructor
  · have hauto : autoGenerate field (E.jsonGet k1.document field.FieldName) = false := by
      simp [autoGenerate, hflag]
    have hfield : generateField E fuel table field k1 parts w1 =
        some (.error (apiErrorf .INVALID_ARGUMENT
          (wrapMissingKeyColumn err field.FieldName)), k1, w1) := by
      simp only [generateField, hauto, herr]
    simp only [generate, hidx, generateLoop_append, hpre, generateLoop, hfield]
    rfl
  · exact ⟨"missing index key column(s) '", "'" ++ ": " ++ err.Error, by
      simp [String.append_assoc]⟩

/-- Witness for C7: the document `{"name":"a"}` and an index with the required integer field
`id`: `generate` returns the error naming `id`, the document and the world are untouched and
the key encoder has received no call. -/
theorem missing_key_column_witness :
    generate refEnv 1 (newKeyGenerator "\x7b\"name\":\"a\"\x7d" ⟨[⟨"id", .Int32Type, false⟩]⟩)
        "orders" emptyWorld =
      some (.error (.api .INVALID_ARGUMENT
        "missing index key column(s) 'id': Key path not found"),
        newKeyGenerator "\x7b\"name\":\"a\"\x7d" ⟨[⟨"id", .Int32Type, false⟩]⟩, emptyWorld) ∧
    emptyWorld.encoded = [] :=
  ⟨(missing_key_column refEnv 1 "orders"
      (newKeyGenerator "\x7b\"name\":\"a\"\x7d" ⟨[⟨"id", .Int32Type, false⟩]⟩)
      (newKeyGenerator "\x7b\"name\":\"a\"\x7d" ⟨[⟨"id", .Int32Type, false⟩]⟩)
      [] [] ⟨"id", .Int32Type, false⟩ [] emptyWorld emptyWorld KeyPathNotFoundError
      rfl rfl rfl (by decide)).1, rfl⟩

/-- The quoting of `getJsonQuotedValue` by cases on the type. -/
theorem getJsonQuotedValue_eq (tp : FieldType) (v : String) :
    getJsonQuotedValue tp v =
      (if tp = .StringType ∨ tp = .UUIDType ∨ tp = .ByteType ∨ tp = .DateTimeType then
        "\"" ++ v ++ "\"" else v) := by
  cases tp <;> simp [getJsonQuotedValue]

/-- The method `addKeyToResp` in terms of the member it appends. -/
theorem addKeyToResp_keysForResp (k : keyGenerator) (f : Field) (v : String) :
    (addKeyToResp k f v).keysForResp =
      (if k.keysForResp.length = 0 then respMember f v
        else (k.keysForResp ++ ",") ++ respMember f v) ∧
    (addKeyToResp k f v).document = k.document := by
  simp only [addKeyToResp, respMember, getJsonQuotedValue_eq]
  split <;> simp

/-- A member of the response fragment is never empty. -/
theorem respMember_length_pos (f : Field) (v : String) : 0 < (respMember f v).length := by
  simp only [respMember, String.length_append]
  have : ("\"" : String).length = 1 := rfl
  omega

/-- Appending members one by one to a non-empty fragment is what `String.intercalate` does
after its first element. -/
theorem foldl_append_members (es : List String) :
    ∀ acc : String, 0 < acc.length →
      es.foldl (fun a e => if a.length = 0 then e else (a ++ ",") ++ e) acc =
        String.intercalate.go acc "," es := by
  induction es with
  | nil => intro acc _; rfl
  | cons e es ih =>
    intro acc hacc
    simp only [List.foldl_cons, String.intercalate.go]
    rw [if_neg (by omega)]
    apply ih
    simp only [String.length_append]
    omega

/-- Appending non-empty members one by one to the empty fragment joins them with commas. -/
theorem foldl_members_eq_intercalate (es : List String) (hpos : ∀ e ∈ es, 0 < e.length) :
    es.foldl (fun a e => if a.length = 0 then e else (a ++ ",") ++ e) "" =
      ",".intercalate es := by
  cases es with
  | nil => rfl
  | cons e es =>
    simp only [List.foldl_cons, String.intercalate]
    have h0 : ("" : String).length = 0 := rfl
    rw [if_pos h0]
    exact foldl_append_members es e (hpos e (List.mem_cons_self e es))

/-- One successful pass of the loop body: the document is the old one, with the quoted
value written by `jsonparser.Set` when the field is synthesized, and the fragment has one
more member, holding the same value. -/
theorem generateField_ok {σ : Type} (E : Env σ) (fuel : Nat) (table : String)
    (field : Field) (k k1 : keyGenerator) (indexParts parts : List Value) (w w1 : σ)
    (h : generateField E fuel table field k indexParts w = some (.ok parts, k1, w1)) :
    k1.document =
      (if (fieldOutcome E fuel table field k w).1 then
        (E.jsonSet k.document
          (getJsonQuotedValue field.Type (fieldOutcome E fuel table field k w).2)
          field.FieldName).1
      else k.document) ∧
    k1.keysForResp =
      (if k.keysForResp.length = 0 then
        respMember field (fieldOutcome E fuel table field k w).2
      else (k.keysForResp ++ ",") ++
        respMember field (fieldOutcome E fuel table field k w).2) := by
  unfold generateField at h
  unfold fieldOutcome
  cases hauto : autoGenerate field (E.jsonGet k.document field.FieldName) with
  | true =>
    simp only [hauto] at h
    cases hget : generator.get E fuel table field w with
    | none => simp [hget] at h
    | some r =>
      obtain ⟨res, w2⟩ := r
      cases res with
      | error err => simp [hget] at h
      | ok jv =>
        obtain ⟨jsonVal, v⟩ := jv
        simp only [hget] at h
        cases hset : setKeyInDoc E k field jsonVal with
        | mk k2 serr =>
          simp only [hset] at h
          cases serr with
          | some e => simp at h
          | none =>
            simp only [Option.some.injEq, Prod.mk.injEq] at h
            obtain ⟨_, hk, _⟩ := h
            have hk2 : k2 = { k with document :=
                (E.jsonSet k.document (getJsonQuotedValue field.Type jsonVal)
                  field.FieldName).1 } := by
              simp only [setKeyInDoc, Prod.mk.injEq] at hset
              exact hset.1.symm
            subst hk
            have := addKeyToResp_keysForResp
              (if field.Type = .Int64Type ∨ field.Type = .DateTimeType then
                { k2 with forceInsert := true } else k2) field jsonVal
            rw [this.1, this.2]
            subst hk2
            constructor
            · split <;> simp
            · split <;> simp
  | false =>
    simp only [hauto] at h
    cases herr : (E.jsonGet k.document field.FieldName).err with
    | some e => simp [herr] at h
    | none =>
      simp only [herr] at h
      cases hv : E.NewValue field.Type (E.jsonGet k.document field.FieldName).value with
      | error e => simp [hv] at h
      | ok v =>
        simp only [hv, Option.some.injEq, Prod.mk.injEq] at h
        obtain ⟨_, hk, _⟩ := h
        subst hk
        have := addKeyToResp_keysForResp k field (E.jsonGet k.document field.FieldName).value
        rw [this.1, this.2]
        simp

/-- The loop of `generate`, when it succeeds: one outcome per field, the document obtained
by the writes of the synthesized fields in order, and the fragment extended by one member
per field in order. -/
theorem generateLoop_ok {σ : Type} (E : Env σ) (fuel : Nat) (table : String) :
    ∀ (fields : List Field) (k k1 : keyGenerator) (indexParts parts : List Value) (w w1 : σ),
      generateLoop E fuel table fields k indexParts w = some (.ok parts, k1, w1) →
      (fieldOutcomes E fuel table fields k indexParts w).length = fields.length ∧
      k1.document = applySynthesized E k.document
        (fields.zip (fieldOutcomes E fuel table fields k indexParts w)) ∧
      k1.keysForResp =
        (List.zipWith (fun f (o : Bool × String) => respMember f o.2) fields
          (fieldOutcomes E fuel table fields k indexParts w)).foldl
          (fun a e => if a.length = 0 then e else (a ++ ",") ++ e) k.keysForResp := by
  intro fields
  induction fields with
  | nil =>
    intro k k1 indexParts parts w w1 h
    simp only [generateLoop, Option.some.injEq, Prod.mk.injEq] at h
    obtain ⟨_, hk, _⟩ := h
    subst hk
    simp [fieldOutcomes, applySynthesized]
  | cons f rest ih =>
    intro k k1 indexParts parts w w1 h
    simp only [generateLoop] at h
    cases hf : generateField E fuel table f k indexParts w with
    | none => simp [hf] at h
    | some r =>
      obtain ⟨res, k2, w2⟩ := r
      cases res with
      | error err => simp [hf] at h
      | ok parts2 =>
        simp only [hf] at h
        obtain ⟨hlen, hdoc, hresp⟩ := ih k2 k1 parts2 parts w2 w1 h
        obtain ⟨hd2, hr2⟩ := generateField_ok E fuel table f k k2 indexParts parts2 w w2 hf
        simp only [fieldOutcomes, hf, List.length_cons, List.zip_cons_cons,
          List.zipWith_cons_cons, List.foldl_cons, applySynthesized]
        refine ⟨by omega, ?_, ?_⟩
        · rw [hdoc, hd2]
          rfl
        · rw [hresp, hr2]

/-- A successful `generate` is a successful loop followed by the key encoder. -/
theorem generate_ok_loop {σ : Type} (E : Env σ) (fuel : Nat) (k k1 : keyGenerator)
    (table : String) (w w1 : σ) (key : Key)
    (h : generate E fuel k table w = some (.ok key, k1, w1)) :
    ∃ parts w2, generateLoop E fuel table k.index.Fields k [] w = some (.ok parts, k1, w2) := by
  unfold generate at h
  cases hl : generateLoop E fuel table k.index.Fields k [] w with
  | none => simp [hl] at h
  | some r =>
    obtain ⟨res, k2, w2⟩ := r
    cases res with
    | error err => simp [hl] at h
    | ok parts =>
      simp only [hl, Option.some.injEq, Prod.mk.injEq] at h
      obtain ⟨_, hk, _⟩ := h
      subst hk
      exact ⟨parts, w2, rfl⟩

/-- Writes of fields none of which is marked as synthesized leave the document as it is. -/
theorem applySynthesized_none {σ : Type} (E : Env σ) (l : List (Field × Bool × String)) :
    ∀ doc : String, (∀ x ∈ l, x.2.1 = false) → applySynthesized E doc l = doc := by
  induction l with
  | nil => intro doc _; rfl
  | cons x l ih =>
    intro doc h
    have hx : x.2.1 = false := h x (List.mem_cons_self x l)
    simp only [applySynthesized, List.foldl_cons, hx]
    exact ih doc (fun y hy => h y (List.mem_cons_of_mem x hy))

/-- The members of the response fragment of a run are never empty. -/
theorem respMembers_pos (fields : List Field) (outs : List (Bool × String)) :
    ∀ e ∈ List.zipWith (fun f (o : Bool × String) => respMember f o.2) fields outs,
      0 < e.length := by
  intro e he
  rw [List.mem_iff_get] at he
  obtain ⟨i, rfl⟩ := he
  simp only [List.get_eq_getElem, List.getElem_zipWith]
  exact respMember_length_pos _ _

/-- C10: after a successful `generate` on a fresh `keyGenerator`, `getKeysForResp` is an
opening brace, the members `"name":value` of the fields in index order joined by single
commas, and a closing brace, where the value of a field is its raw or synthesized value,
between double quotes for the string, UUID, byte and date-time types and as it is for every
other type; there is one member per field; and on the fresh `keyGenerator`
`getKeysForResp` is `{}`. -/
theorem response_fragment_shape {σ : Type} (E : Env σ) (fuel : Nat) (doc : String)
    (index : Index) (table : String) (w w1 : σ) (key : Key) (k1 : keyGenerator)
    (hgen : generate E fuel (newKeyGenerator doc index) table w = some (.ok key, k1, w1)) :
    getKeysForResp k1 =
      "\x7b" ++ ",".intercalate
        (List.zipWith (fun f (o : Bool × String) => respMember f o.2) index.Fields
          (fieldOutcomes E fuel table index.Fields (newKeyGenerator doc index) [] w)) ++
        "\x7d" ∧
    (fieldOutcomes E fuel table index.Fields (newKeyGenerator doc index) [] w).length =
      index.Fields.length ∧
    getKeysForResp (newKeyGenerator doc index) = "\x7b\x7d" := by
  obtain ⟨parts, w2, hloop⟩ := generate_ok_loop E fuel _ k1 table w w1 key hgen
  obtain ⟨hlen, _, hresp⟩ := generateLoop_ok E fuel table _ _ k1 [] parts w w2 hloop
  refine ⟨?_, hlen, rfl⟩
  simp only [getKeysForResp]
  rw [hresp]
  simp only [newKeyGenerator]
  rw [foldl_members_eq_intercalate _ (respMembers_pos _ _)]

/-- Witness for C10: the document `{"id":7,"name":"a"}` with the supplied int64 field `id`,
the auto-generated UUID field `pk` and the supplied string field `name`: the fragment is
`{"id":7,"pk":"<uuid>","name":"a"}`. -/
theorem response_fragment_shape_witness :
    ∃ key k1 w1,
      generate refEnv 1 (newKeyGenerator "\x7b\"id\":7,\"name\":\"a\"\x7d" mixedIndex) "orders"
        uuidWorld = some (.ok key, k1, w1) ∧
      getKeysForResp k1 =
        "\x7b\"id\":7,\"pk\":\"6ba7b810-9dad-11d1-80b4-00c04fd430c8\",\"name\":\"a\"\x7d" := by
  have hgen : generate refEnv 1 (newKeyGenerator "\x7b\"id\":7,\"name\":\"a\"\x7d" mixedIndex)
      "orders" uuidWorld =
      some (.ok (NewKey "orders" [.IntValue 7,
          .StringValue "6ba7b810-9dad-11d1-80b4-00c04fd430c8", .StringValue "a"]),
        { document :=
            "\x7b\"id\":7,\"name\":\"a\",\"pk\":\"6ba7b810-9dad-11d1-80b4-00c04fd430c8\"\x7d",
          keysForResp :=
            "\"id\":7,\"pk\":\"6ba7b810-9dad-11d1-80b4-00c04fd430c8\",\"name\":\"a\"",
          index := mixedIndex, forceInsert := false },
        { uuidWorld with
          uuidCount := 1,
          encoded := [("orders", [.IntValue 7,
            .StringValue "6ba7b810-9dad-11d1-80b4-00c04fd430c8", .StringValue "a"])] }) := by
    rfl
  have h := response_fragment_shape refEnv 1 _ mixedIndex "orders" uuidWorld _ _ _ hgen
  exact ⟨_, _, _, hgen, h.1.trans (by decide)⟩

/-- C9: after a successful `generate` the document is the one the call started with, with
`jsonparser.Set` applied once per synthesized field, in index order, each time writing
`getJsonQuotedValue` of the type and the display bytes of the field; on a fresh
`keyGenerator` the member of each field in the response fragment holds the same bytes;
and when no field is synthesized the document is unchanged. -/
theorem document_mutation_matches_response {σ : Type} (E : Env σ) (fuel : Nat)
    (k k1 : keyGenerator) (table : String) (w w1 : σ) (key : Key)
    (hgen : generate E fuel k table w = some (.ok key, k1, w1)) :
    k1.document =
      ((k.index.Fields.zip (fieldOutcomes E fuel table k.index.Fields k [] w)).foldl
        (fun d x =>
          if x.2.1 then (E.jsonSet d (getJsonQuotedValue x.1.Type x.2.2) x.1.FieldName).1
          else d) k.document) ∧
    (k.keysForResp = "" →
      getKeysForResp k1 =
        "\x7b" ++ ",".intercalate
          (List.zipWith
            (fun f (o : Bool × String) =>
              "\"" ++ f.FieldName ++ "\":" ++ getJsonQuotedValue f.Type o.2) k.index.Fields
            (fieldOutcomes E fuel table k.index.Fields k [] w)) ++
          "\x7d") ∧
    ((∀ o ∈ fieldOutcomes E fuel table k.index.Fields k [] w, o.1 = false) →
      k1.document = k.document) := by
  obtain ⟨parts, w2, hloop⟩ := generate_ok_loop E fuel k k1 table w w1 key hgen
  obtain ⟨hlen, hdoc, hresp⟩ := generateLoop_ok E fuel table _ _ k1 [] parts w w2 hloop
  have hmem : (fun f (o : Bool × String) =>
      "\"" ++ f.FieldName ++ "\":" ++ getJsonQuotedValue f.Type o.2) =
      (fun f (o : Bool × String) => respMember f o.2) := by
    funext f o
    simp only [respMember, getJsonQuotedValue_eq]
  refine ⟨hdoc, ?_, ?_⟩
  · intro hfresh
    simp only [getKeysForResp]
    rw [hresp, hmem, hfresh]
    rw [foldl_members_eq_intercalate _ (respMembers_pos _ _)]
  · intro hall
    rw [hdoc]
    apply applySynthesized_none
    intro x hx
    exact hall x.2 (List.of_mem_zip hx).2

/-- Witness for C9: the document `{}` with the auto-generated UUID field `pk`: the document
becomes `{"pk":"<uuid>"}` and the fragment is `{"pk":"<uuid>"}` with the same UUID. -/
theorem document_mutation_matches_response_witness :
    ∃ key k1 w1,
      generate refEnv 1 (newKeyGenerator "\x7b\x7d" pkIndex) "orders" uuidWorld =
        some (.ok key, k1, w1) ∧
      k1.document = "\x7b\"pk\":\"6ba7b810-9dad-11d1-80b4-00c04fd430c8\"\x7d" ∧
      getKeysForResp k1 = "\x7b\"pk\":\"6ba7b810-9dad-11d1-80b4-00c04fd430c8\"\x7d" := by
  have hgen : generate refEnv 1 (newKeyGenerator "\x7b\x7d" pkIndex) "orders" uuidWorld =
      some (.ok (NewKey "orders" [.StringValue "6ba7b810-9dad-11d1-80b4-00c04fd430c8"]),
        { document := "\x7b\"pk\":\"6ba7b810-9dad-11d1-80b4-00c04fd430c8\"\x7d",
          keysForResp := "\"pk\":\"6ba7b810-9dad-11d1-80b4-00c04fd430c8\"",
          index := pkIndex, forceInsert := false },
        { uuidWorld with
          uuidCount := 1,
          encoded := [("orders", [.StringValue "6ba7b810-9dad-11d1-80b4-00c04fd430c8"])] }) := by
    rfl
  have h := document_mutation_matches_response refEnv 1 _ _ "orders" uuidWorld _ _ hgen
  exact ⟨_, _, _, hgen, h.1.trans (by decide), (h.2.1 rfl).trans (by decide)⟩

/-- One transaction that ends in a conflict costs the replayed call one pass of its loop. -/
theorem replay_conflictRound (fuel : Nat) (table : String) (row : Option (List Nat))
    (rest : List Answer) :
    generateInTx replayTx (fuel + 1) table ⟨conflictRound row ++ rest, none⟩ =
      generateInTx replayTx fuel table ⟨rest, none⟩ := by
  simp [generateInTx, generateInt, replayTx, conflictRound]

/-- The transactions that ended in a conflict cost the replayed call one pass each. -/
theorem replay_conflictRounds (table : String) (cur : List Answer) :
    ∀ (rows : List (Option (List Nat))) (fuel : Nat),
      generateInTx replayTx (rows.length + fuel) table
          ⟨rows.flatMap conflictRound ++ cur, none⟩ =
        generateInTx replayTx fuel table ⟨cur, none⟩ := by
  intro rows
  induction rows with
  | nil => intro fuel; simp
  | cons row rows ih =>
    intro fuel
    have h : (row :: rows).length + fuel = (rows.length + fuel) + 1 := by
      simp only [List.length_cons]; omega
    rw [h, List.flatMap_cons, List.append_assoc, replay_conflictRound]
    exact ih fuel

/-- A call run on the answers of conflicting transactions and of a current transaction is
the call run on the current transaction, with fuel to spare. -/
theorem runCall_rounds (table : String) (rows : List (Option (List Nat)))
    (cur : List Answer) :
    runCall table (rows.flatMap conflictRound ++ cur) =
      generateInTx replayTx (3 * rows.length + cur.length + 1) table ⟨cur, none⟩ := by
  have hlen : (rows.flatMap conflictRound).length = 4 * rows.length := by
    induction rows with
    | nil => rfl
    | cons row rows ih =>
      simp only [List.flatMap_cons, List.length_append, ih, List.length_cons]
      simp [conflictRound]
      omega
  unfold runCall
  rw [List.length_append, hlen]
  have h : 4 * rows.length + cur.length + 1 =
      rows.length + (3 * rows.length + cur.length + 1) := by omega
  rw [h]
  exact replay_conflictRounds table cur rows _

/-- What the embedded `generateInTx` does in each phase: the store operation it asks for next
is that of the phase, and it has returned, with a nil error and the id of the phase, exactly
in the phase `returned`. -/
theorem phase_request (table : String) (caller : Caller) (pc : Pc)
    (h : InPhase table caller pc) :
    nextRequest table caller.answers = pc.request table ∧
    callResult table caller.answers = pc.result.map (fun v => (v, none)) ∧
    succeededId table caller.answers = pc.result := by
  cases pc with
  | atStartTx =>
    obtain ⟨rows, ha⟩ := h
    have hr : runCall table caller.answers =
        some ((-1, some notAnswered), ⟨[], some .StartTx⟩) := by
      rw [ha, ← List.append_nil (rows.flatMap conflictRound), runCall_rounds]
      simp [generateInTx, replayTx]
    simp [nextRequest, callResult, succeededId, hr, Pc.request, Pc.result]
  | atRead =>
    obtain ⟨rows, ha, _⟩ := h
    have hr : runCall table caller.answers =
        some ((-1, some notAnswered), ⟨[], some (.Read (counterKey table))⟩) := by
      rw [ha, runCall_rounds]
      simp [generateInTx, generateInt, replayTx, counterKey, notAnswered]
    simp [nextRequest, callResult, succeededId, hr, Pc.request, Pc.result]
  | atReplace snapshot id =>
    obtain ⟨rows, row, ha, _, hid⟩ := h
    have hr : runCall table caller.answers =
        some ((-1, some notAnswered),
          ⟨[], some (.Replace (counterKey table) (UInt32ToByte id))⟩) := by
      rw [ha, runCall_rounds, hid]
      cases row <;> simp [generateInTx, generateInt, replayTx, counterKey, notAnswered, nextId]
    simp [nextRequest, callResult, succeededId, hr, Pc.request, Pc.result]
  | atCommit snapshot id =>
    obtain ⟨rows, row, ha, _, hid⟩ := h
    have hr : runCall table caller.answers =
        some ((-1, some notAnswered), ⟨[], some .Commit⟩) := by
      rw [ha, runCall_rounds]
      simp [generateInTx, generateInt, replayTx, notAnswered]
    simp [nextRequest, callResult, succeededId, hr, Pc.request, Pc.result]
  | returned v =>
    obtain ⟨rows, row, ha, hv⟩ := h
    have hr : runCall table caller.answers = some ((v, none), ⟨[], none⟩) := by
      rw [ha, runCall_rounds, hv]
      cases row <;> simp [generateInTx, generateInt, replayTx, nextId]
    simp [nextRequest, callResult, succeededId, hr, Pc.request, Pc.result]

/-- Serving the store operation of a call in a phase changes the store as the step of the
phase does, and leaves the call in the next phase. -/
theorem phase_step (table : String) (s : Store) (t : Shared) (caller : Caller) (pc : Pc)
    (req : Request) (hst : SameStore table s t)
    (h : InPhase table caller pc) (hreq : pc.request table = some req) :
    SameStore table (serve s caller.tx req).1 (stepCall table t pc).1 ∧
    InPhase table ⟨caller.answers ++ [(serve s caller.tx req).2.2], (serve s caller.tx req).2.1⟩
      (stepCall table t pc).2 := by
  obtain ⟨hdata, hver⟩ := hst
  cases pc with
  | atStartTx =>
    obtain ⟨rows, ha⟩ := h
    simp only [Pc.request, Option.some.injEq] at hreq
    subst hreq
    exact ⟨⟨hdata, hver⟩, rows, by simp [serve, ha], rfl⟩
  | atRead =>
    obtain ⟨rows, ha, htx⟩ := h
    simp only [Pc.request, Option.some.injEq] at hreq
    subst hreq
    refine ⟨⟨hdata, hver⟩, rows, t.data (counterKey table), ?_, ?_, rfl⟩
    · simp [serve, ha, htx, applyWrites_nil, hdata]
    · simp [serve, htx, hver]
  | atReplace snapshot id =>
    obtain ⟨rows, row, ha, htx, hid⟩ := h
    simp only [Pc.request, Option.some.injEq] at hreq
    subst hreq
    refine ⟨⟨hdata, hver⟩, rows, row, ?_, ?_, hid⟩
    · simp [serve, ha]
    · simp [serve, htx]
  | atCommit snapshot id =>
    obtain ⟨rows, row, ha, htx, hid⟩ := h
    simp only [Pc.request, Option.some.injEq] at hreq
    subst hreq
    by_cases hs : snapshot = t.commits
    · have hstep : stepCall table t (.atCommit snapshot id) =
          (⟨applyWrites t.data [(counterKey table, UInt32ToByte id)], t.commits + 1⟩,
            .returned (toInt32 id)) := by
        simp [stepCall, hs, counterKey]
      have hserve : serve s caller.tx .Commit =
          (⟨applyWrites s.data [(counterKey table, UInt32ToByte id)],
              fun key =>
                if ([(counterKey table, UInt32ToByte id)].lookup key).isSome then
                  s.version key + 1
                else s.version key⟩,
            ⟨[], []⟩, .Commit none) := by
        simp [serve, htx, hs, hver]
      rw [hstep, hserve]
      refine ⟨⟨by rw [hdata], ?_⟩, rows, row, by simp [ha], by rw [hid]⟩
      simp [List.lookup, hver]
    · have hstep : stepCall table t (.atCommit snapshot id) = (t, .atStartTx) := by
        simp [stepCall, hs]
      have hserve : serve s caller.tx .Commit =
          (s, ⟨[], []⟩, .Commit (some .ErrConflictingTransaction)) := by
        have hne : ¬ s.version (counterKey table) = snapshot := by
          rw [hver]
          exact fun h => hs h.symm
        simp [serve, htx, hne]
      rw [hstep, hserve]
      exact ⟨⟨hdata, hver⟩, rows ++ [row], by simp [ha, conflictRound]⟩
  | returned v => simp [Pc.request] at hreq

/-- Writing to a position what it holds leaves the list as it is. -/
theorem set_getElem?_self {α : Type} (l : List α) (i : Nat) (a : α) (h : l[i]? = some a) :
    l.set i a = l := by
  apply List.ext_getElem?
  intro j
  rw [List.getElem?_set]
  split
  · rename_i hij
    subst hij
    split
    · exact h.symm
    · rename_i hlt
      rw [List.getElem?_eq_none (by omega)]
  · rfl

/-- The phases summarise the calls when they start. -/
theorem summarises_start (table : String) (data : Key → Option (List Nat)) (n : Nat) :
    Summarises table (startConcurrent data n) (startCalls data n) := by
  refine ⟨⟨rfl, rfl⟩, by simp [startConcurrent, startCalls], ?_⟩
  intro i caller pc hc hp
  have h1 : caller ∈ (startConcurrent data n).callers := List.getElem?_mem hc
  have h2 : pc ∈ (startCalls data n).calls := List.getElem?_mem hp
  simp only [startConcurrent] at h1
  simp only [startCalls] at h2
  rw [List.eq_of_mem_replicate h1, List.eq_of_mem_replicate h2]
  exact ⟨[], rfl⟩

/-- The phases follow the calls: when the call with number `i`, driven by the embedded
`generateInTx`, has its next store operation served, the phases after the step with number
`i` summarise the calls again. -/
theorem phases_follow_calls (table : String) (st : Concurrent) (ab : Calls) (i : Nat)
    (h : Summarises table st ab) :
    Summarises table (stepConcurrent table st i) (stepCalls table ab i) := by
  obtain ⟨hsh, hlen, hph⟩ := h
  unfold stepConcurrent stepCalls
  cases hc : st.callers[i]? with
  | none =>
    have hp : ab.calls[i]? = none := by
      rw [List.getElem?_eq_none_iff] at hc ⊢
      omega
    simp only [hp]
    exact ⟨hsh, hlen, hph⟩
  | some caller =>
    have hi : i < ab.calls.length := by
      rcases List.getElem?_eq_some.mp hc with ⟨hlt, _⟩
      omega
    have hp : ab.calls[i]? = some ab.calls[i] := List.getElem?_eq_getElem hi
    have hin := hph i caller _ hc hp
    obtain ⟨hreq, _, _⟩ := phase_request table caller _ hin
    simp only [hp, hreq]
    cases hr : (ab.calls[i]).request table with
    | none =>
      have hret : ∃ v, ab.calls[i] = .returned v := by
        cases hpc : ab.calls[i] with
        | returned v => exact ⟨v, rfl⟩
        | _ => rw [hpc] at hr; simp [Pc.request] at hr
      obtain ⟨v, hv⟩ := hret
      rw [hv] at hp
      simp only [hv, stepCall]
      rw [set_getElem?_self _ _ _ hp]
      exact ⟨hsh, hlen, hph⟩
    | some req =>
      obtain ⟨h1, h2⟩ := phase_step table st.shared ab.shared caller _ req hsh hin hr
      simp only
      refine ⟨h1, by simp [hlen], ?_⟩
      intro j c p hj hpj
      rw [List.getElem?_set] at hj hpj
      by_cases hij : i = j
      · subst hij
        have hlt : i < st.callers.length := by omega
        rw [if_pos rfl, if_pos (by omega)] at hj hpj
        injection hj with hj
        injection hpj with hpj
        subst hj
        subst hpj
        exact h2
      · rw [if_neg hij] at hj hpj
        exact hph j c p hj hpj

/-- The phases follow the calls along every schedule. -/
theorem phases_follow_schedule (table : String) :
    ∀ (schedule : List Nat) (st : Concurrent) (ab : Calls), Summarises table st ab →
      Summarises table (runConcurrent table schedule st) (runCalls table schedule ab) := by
  intro schedule
  induction schedule with
  | nil => intro st ab h; exact h
  | cons i rest ih =>
    intro st ab h
    simp only [runConcurrent, runCalls, List.foldl_cons]
    exact ih _ _ (phases_follow_calls table st ab i h)

/-- Asking every element for a value is asking the list of the values. -/
theorem all_map_isSome {α β : Type} (f : α → Option β) (l : List α) :
    l.all (fun a => (f a).isSome) = (l.map f).all Option.isSome := by
  induction l with
  | nil => rfl
  | cons a l ih => simp only [List.all_cons, List.map_cons, ih]

/-- The calls have returned what the phases that summarise them hold. -/
theorem summarises_ids (table : String) (st : Concurrent) (ab : Calls)
    (h : Summarises table st ab) :
    concurrentIds table st = returnedIds ab ∧ allSucceeded table st = allReturned ab := by
  obtain ⟨_, hlen, hph⟩ := h
  have hmap : st.callers.map (fun caller => succeededId table caller.answers) =
      ab.calls.map Pc.result := by
    apply List.ext_getElem?
    intro j
    simp only [List.getElem?_map]
    cases hc : st.callers[j]? with
    | none =>
      have hp : ab.calls[j]? = none := by
        rw [List.getElem?_eq_none_iff] at hc ⊢
        omega
      simp [hp]
    | some caller =>
      have hj : j < ab.calls.length := by
        rcases List.getElem?_eq_some.mp hc with ⟨hlt, _⟩
        omega
      have hp : ab.calls[j]? = some ab.calls[j] := List.getElem?_eq_getElem hj
      simp only [hp, Option.map_some']
      exact congrArg some (phase_request table caller _ (hph j caller _ hc hp)).2.2
  constructor
  · have h1 : concurrentIds table st =
        (st.callers.map (fun caller => succeededId table caller.answers)).filterMap id := by
      simp [concurrentIds, List.filterMap_map]
    have h2 : returnedIds ab = (ab.calls.map Pc.result).filterMap id := by
      simp [returnedIds, List.filterMap_map]
    rw [h1, h2, hmap]
  · have h1 : allSucceeded table st =
        (st.callers.map (fun caller => succeededId table caller.answers)).all
          Option.isSome := all_map_isSome _ _
    have h2 : allReturned ab = (ab.calls.map Pc.result).all Option.isSome :=
      all_map_isSome _ _
    rw [h1, h2, hmap]

/-- Replacing a call that has not returned changes the returned ids by what the new state
of the call returns. -/
theorem filterMap_result_set (pc' : Pc) :
    ∀ (ts : List Pc) (i : Nat) (pc : Pc), ts[i]? = some pc → pc.result = none →
      List.Perm ((ts.set i pc').filterMap Pc.result)
        (pc'.result.toList ++ ts.filterMap Pc.result) := by
  intro ts
  induction ts with
  | nil => intro i pc h; simp at h
  | cons t ts ih =>
    intro i pc h hres
    cases i with
    | zero =>
      simp only [List.getElem?_cons_zero, Option.some.injEq] at h
      subst h
      simp only [List.set_cons_zero, List.filterMap_cons, hres]
      cases pc'.result <;> simp
    | succ i =>
      simp only [List.getElem?_cons_succ] at h
      have := ih i pc h hres
      simp only [List.set_cons_succ, List.filterMap_cons]
      cases ht : t.result with
      | none => simpa using this
      | some v =>
        simp only
        exact (List.Perm.cons v this).trans List.perm_middle.symm

/-- The id `tx.Read` computes is the counter value plus one, as a `uint32`. -/
theorem read_id_eq (data : Key → Option (List Nat)) (table : String) :
    (match data (NewKey generatorSubspaceKey
        [.BytesValue table, .StringValue int32IdKey]) with
      | some row => (ByteToUInt32 row + 1) % 2 ^ 32
      | none => 1) = (counterValue data table + 1) % 2 ^ 32 := by
  simp only [counterValue, counterKey]
  cases data (NewKey generatorSubspaceKey [.BytesValue table, .StringValue int32IdKey]) <;> rfl

/-- The invariant holds when the calls start. -/
theorem callsInv_start (table : String) (data : Key → Option (List Nat)) (n : Nat) :
    CallsInv table (counterValue data table) n (startCalls data n) := by
  refine ⟨by simp [startCalls], by simp [startCalls], ?_, ?_⟩
  · have : returnedIds (startCalls data n) = [] := by
      simp only [returnedIds, startCalls, List.filterMap_eq_nil_iff]
      intro a ha
      rw [List.eq_of_mem_replicate ha]
      rfl
    rw [this]
    simp [startCalls]
  · intro pc hpc snapshot id h
    simp only [startCalls] at hpc
    rw [List.eq_of_mem_replicate hpc] at h
    rcases h with h | h <;> cases h

/-- A step of one call keeps the invariant. -/
theorem callsInv_step (table : String) (c n : Nat) (st : Calls)
    (i : Nat) (hinv : CallsInv table c n st) : CallsInv table c n (stepCalls table st i) := by
  obtain ⟨hlen, hctr, hperm, hpcs⟩ := hinv
  unfold stepCalls
  cases hget : st.calls[i]? with
  | none => exact ⟨hlen, hctr, hperm, hpcs⟩
  | some pc =>
    have hmem : pc ∈ st.calls := List.getElem?_mem hget
    simp only
    cases pc with
    | atStartTx =>
      have hp := filterMap_result_set .atRead st.calls i _ hget rfl
      refine ⟨by simp [stepCall, hlen], hctr, ?_, ?_⟩
      · exact (show List.Perm _ _ from hp).trans (by simpa [Pc.result] using hperm)
      · intro pc hpc snapshot id h
        rcases List.mem_or_eq_of_mem_set hpc with hm | he
        · exact hpcs pc hm snapshot id h
        · subst he
          rcases h with h | h <;> cases h
    | atRead =>
      have hp := filterMap_result_set
        (stepCall table st.shared .atRead).2 st.calls i _ hget rfl
      refine ⟨by simp [stepCall, hlen], hctr, ?_, ?_⟩
      · exact (show List.Perm _ _ from hp).trans (by simpa [stepCall, Pc.result] using hperm)
      · intro pc hpc snapshot id h
        rcases List.mem_or_eq_of_mem_set hpc with hm | he
        · exact hpcs pc hm snapshot id h
        · subst he
          simp only [stepCall, read_id_eq] at h
          rcases h with h | h
          · injection h with h1 h2
            subst h1
            subst h2
            exact ⟨le_refl _, hctr⟩
          · cases h
    | atReplace snapshot id =>
      have hp := filterMap_result_set (.atCommit snapshot id) st.calls i _ hget rfl
      have hold := hpcs _ hmem snapshot id (Or.inl rfl)
      refine ⟨by simp [stepCall, hlen], hctr, ?_, ?_⟩
      · exact (show List.Perm _ _ from hp).trans (by simpa [Pc.result] using hperm)
      · intro pc hpc snapshot' id' h
        rcases List.mem_or_eq_of_mem_set hpc with hm | he
        · exact hpcs pc hm snapshot' id' h
        · subst he
          simp only [stepCall] at h
          rcases h with h | h
          · cases h
          · injection h with h1 h2
            subst h1
            subst h2
            exact hold
    | atCommit snapshot id =>
      have hold := hpcs _ hmem snapshot id (Or.inr rfl)
      by_cases hsnap : snapshot = st.shared.commits
      · -- the commit succeeds
        have hstep : stepCall table st.shared (.atCommit snapshot id) =
            ({ data := applyWrites st.shared.data [(counterKey table, UInt32ToByte id)],
               commits := st.shared.commits + 1 }, .returned (toInt32 id)) := by
          simp [stepCall, hsnap, counterKey]
        rw [hstep]
        have hp := filterMap_result_set (.returned (toInt32 id)) st.calls i _ hget rfl
        have hp' : List.Perm (returnedIds ⟨⟨applyWrites st.shared.data
              [(counterKey table, UInt32ToByte id)], st.shared.commits + 1⟩,
              st.calls.set i (.returned (toInt32 id))⟩)
            (toInt32 id :: returnedIds st) := by
          simpa [returnedIds, Pc.result] using hp
        have hid : id = (c + st.shared.commits + 1) % 2 ^ 32 := by rw [hold.2, hsnap]
        have hid32 : id < 2 ^ 32 := by
          rw [hid]
          exact Nat.mod_lt _ (by norm_num)
        refine ⟨by simp [hlen], ?_, ?_, ?_⟩
        · simp only
          rw [counterValue_after_write _ _ _ hid32, hid]
          omega
        · refine hp'.trans ?_
          simp only [List.range_succ, List.map_append, List.map_cons, List.map_nil]
          refine (List.Perm.cons _ hperm).trans ?_
          have : toInt32 id = idAfter c st.shared.commits := by
            rw [hid, idAfter]
            congr 2
            omega
          rw [this]
          exact (List.perm_append_singleton _ _).symm
        · intro pc hpc snapshot' id' h
          rcases List.mem_or_eq_of_mem_set hpc with hm | he
          · have := hpcs pc hm snapshot' id' h
            exact ⟨by simp only; omega, this.2⟩
          · subst he
            rcases h with h | h <;> cases h
      · -- the commit conflicts
        have hstep : stepCall table st.shared (.atCommit snapshot id) =
            (st.shared, .atStartTx) := by
          simp [stepCall, hsnap]
        rw [hstep]
        have hp := filterMap_result_set .atStartTx st.calls i _ hget rfl
        refine ⟨by simp [hlen], hctr, ?_, ?_⟩
        · exact (show List.Perm _ _ from hp).trans (by simpa [Pc.result] using hperm)
        · intro pc hpc snapshot' id' h
          rcases List.mem_or_eq_of_mem_set hpc with hm | he
          · exact hpcs pc hm snapshot' id' h
          · subst he
            rcases h with h | h <;> cases h
    | returned v =>
      simp only [stepCall, set_getElem?_self _ _ _ hget]
      exact ⟨hlen, hctr, hperm, hpcs⟩

/-- Every schedule keeps the invariant. -/
theorem callsInv_run (table : String) (c n : Nat) :
    ∀ (schedule : List Nat) (st : Calls), CallsInv table c n st →
      CallsInv table c n (runCalls table schedule st) := by
  intro schedule
  induction schedule with
  | nil => intro st h; exact h
  | cons i rest ih =>
    intro st h
    simp only [runCalls, List.foldl_cons]
    exact ih _ (callsInv_step table c n st i h)

/-- When all calls have returned there are as many returned ids as calls. -/
theorem returnedIds_length_of_all (ts : List Pc)
    (h : ts.all (fun pc => pc.result.isSome) = true) :
    (ts.filterMap Pc.result).length = ts.length := by
  induction ts with
  | nil => rfl
  | cons t ts ih =>
    simp only [List.all_cons, Bool.and_eq_true] at h
    obtain ⟨v, hv⟩ := Option.isSome_iff_exists.mp h.1
    simp only [List.filterMap_cons, hv, List.length_cons, ih h.2]

/-- A step of any call leaves a call that has returned as it is. -/
theorem stepCalls_returned_stable (table : String) (st : Calls) (i m : Nat) (v : Int)
    (h : st.calls[m]? = some (.returned v)) :
    (stepCalls table st i).calls[m]? = some (.returned v) := by
  unfold stepCalls
  cases hget : st.calls[i]? with
  | none => exact h
  | some pc =>
    simp only [List.getElem?_set]
    split
    · rename_i him
      subst him
      rw [hget] at h
      injection h with h
      subst h
      have hlt : i < st.calls.length := by
        rcases List.getElem?_eq_some.mp hget with ⟨hlt, _⟩
        exact hlt
      simp [hlt, stepCall]
    · exact h

/-- A schedule leaves a call that has returned as it is. -/
theorem runCalls_returned_stable (table : String) (m : Nat) (v : Int) :
    ∀ (schedule : List Nat) (st : Calls), st.calls[m]? = some (.returned v) →
      (runCalls table schedule st).calls[m]? = some (.returned v) := by
  intro schedule
  induction schedule with
  | nil => intro st h; exact h
  | cons i rest ih =>
    intro st h
    simp only [runCalls, List.foldl_cons]
    exact ih _ (stepCalls_returned_stable table st i m v h)

/-- A step keeps the number of calls. -/
theorem stepCalls_length (table : String) (st : Calls) (i : Nat) :
    (stepCalls table st i).calls.length = st.calls.length := by
  unfold stepCalls
  cases st.calls[i]? <;> simp

/-- A schedule keeps the number of calls. -/
theorem runCalls_length (table : String) :
    ∀ (schedule : List Nat) (st : Calls),
      (runCalls table schedule st).calls.length = st.calls.length := by
  intro schedule
  induction schedule with
  | nil => intro st; rfl
  | cons i rest ih =>
    intro st
    simp only [runCalls, List.foldl_cons]
    rw [← stepCalls_length table st i]
    exact ih _

/-- A step of the call in the middle of the list of calls. -/
theorem stepCalls_middle (table : String) (s : Shared) (l1 l2 : List Pc) (pc : Pc) :
    stepCalls table ⟨s, l1 ++ pc :: l2⟩ l1.length =
      ⟨(stepCall table s pc).1, l1 ++ (stepCall table s pc).2 :: l2⟩ := by
  have h : (l1 ++ pc :: l2)[l1.length]? = some pc := by
    rw [List.getElem?_append_right (Nat.le_refl _), Nat.sub_self]
    exact List.getElem?_cons_zero
  simp only [stepCalls, h]
  congr 1
  simp

/-- Six steps in a row make a call return, wherever it stands. -/
theorem six_steps_middle (table : String) (s : Shared) (l1 l2 : List Pc) (pc : Pc) :
    ∃ s' v, runCalls table (List.replicate 6 l1.length) ⟨s, l1 ++ pc :: l2⟩ =
      ⟨s', l1 ++ Pc.returned v :: l2⟩ := by
  simp only [runCalls, List.replicate, List.foldl_cons, List.foldl_nil, stepCalls_middle]
  cases pc with
  | atStartTx => simp only [stepCall, if_true]; exact ⟨_, _, rfl⟩
  | atRead => simp only [stepCall, if_true]; exact ⟨_, _, rfl⟩
  | atReplace snapshot id =>
    by_cases h : snapshot = s.commits
    · simp only [stepCall, h, if_true]; exact ⟨_, _, rfl⟩
    · simp only [stepCall, h, if_false, if_true]; exact ⟨_, _, rfl⟩
  | atCommit snapshot id =>
    by_cases h : snapshot = s.commits
    · simp only [stepCall, h, if_true]; exact ⟨_, _, rfl⟩
    · simp only [stepCall, h, if_false, if_true]; exact ⟨_, _, rfl⟩
  | returned v => simp only [stepCall]; exact ⟨_, _, rfl⟩

/-- Six steps in a row make the call with number `i` return. -/
theorem six_steps_return (table : String) (st : Calls) (i : Nat) (hi : i < st.calls.length) :
    ∃ v, (runCalls table (List.replicate 6 i) st).calls[i]? = some (.returned v) := by
  have hsplit : st.calls = st.calls.take i ++ st.calls[i] :: st.calls.drop (i + 1) := by
    rw [← List.drop_eq_getElem_cons hi, List.take_append_drop]
  have hlen : (st.calls.take i).length = i := by
    rw [List.length_take]
    omega
  obtain ⟨s', v, h⟩ := six_steps_middle table st.shared (st.calls.take i)
    (st.calls.drop (i + 1)) st.calls[i]
  rw [hlen, ← hsplit] at h
  refine ⟨v, ?_⟩
  have hst : st = ⟨st.shared, st.calls⟩ := rfl
  rw [hst, h]
  rw [List.getElem?_append_right (by omega), hlen, Nat.sub_self]
  exact List.getElem?_cons_zero

/-- After the completion schedule for the first `j` calls these have all returned. -/
theorem completionSchedule_prefix (table : String) (st : Calls) :
    ∀ j, j ≤ st.calls.length → ∀ m, m < j →
      ∃ v, (runCalls table (completionSchedule j) st).calls[m]? = some (.returned v) := by
  intro j
  induction j with
  | zero => intro _ m hm; omega
  | succ j ih =>
    intro hj m hm
    have hsched : completionSchedule (j + 1) = completionSchedule j ++ List.replicate 6 j := by
      simp [completionSchedule, List.range_succ]
    have hrun : runCalls table (completionSchedule (j + 1)) st =
        runCalls table (List.replicate 6 j) (runCalls table (completionSchedule j) st) := by
      rw [hsched]
      simp only [runCalls, List.foldl_append]
    rw [hrun]
    by_cases hmj : m < j
    · obtain ⟨v, hv⟩ := ih (by omega) m hmj
      exact ⟨v, runCalls_returned_stable table m v _ _ hv⟩
    · have hmeq : m = j := by omega
      subst hmeq
      exact six_steps_return table _ m (by rw [runCalls_length]; omega)

/-- From any state the completion schedule makes all calls return. -/
theorem completionSchedule_allReturned (table : String) (st : Calls) :
    allReturned (runCalls table (completionSchedule st.calls.length) st) = true := by
  simp only [allReturned, List.all_eq_true]
  intro pc hpc
  obtain ⟨m, hm⟩ := List.mem_iff_getElem?.mp hpc
  have hlt : m < st.calls.length := by
    rcases List.getElem?_eq_some.mp hm with ⟨hlt, _⟩
    rw [runCalls_length] at hlt
    exact hlt
  obtain ⟨v, hv⟩ := completionSchedule_prefix table st st.calls.length (le_refl _) m hlt
  rw [hv] at hm
  injection hm with hm
  subst hm
  rfl

/-- A single call run alone through its four steps returns the id, and leaves the rows,
that `generateInTx` returns and leaves on the sequential store. -/
theorem single_call_agrees_with_generateInTx (table : String) (w : World) :
    ∃ V w1, generateInTx kvTx 1 table w = some ((V, none), w1) ∧
      returnedIds (runCalls table [0, 0, 0, 0] (startCalls w.data 1)) = [V] ∧
      (runCalls table [0, 0, 0, 0] (startCalls w.data 1)).shared.data = w1.data := by
  have hr := read_id_eq w.data table
  simp only [Nat.reducePow] at hr
  refine ⟨_, _, generateInTx_kvTx 0 table w, ?_, ?_⟩
  · simp [runCalls, startCalls, stepCalls, stepCall, returnedIds, Pc.result, hr]
  · simp [runCalls, startCalls, stepCalls, stepCall, hr, counterKey]


/-- The conversion to `int32` tells apart what differs as a `uint32`. -/
theorem toInt32_inj (a b : Nat) (h : toInt32 a = toInt32 b) : a % 2 ^ 32 = b % 2 ^ 32 := by
  unfold toInt32 at h
  have ha : a % 2 ^ 32 < 2 ^ 32 := Nat.mod_lt _ (by norm_num)
  have hb : b % 2 ^ 32 < 2 ^ 32 := Nat.mod_lt _ (by norm_num)
  split_ifs at h <;> omega

/-- While the ids fit an `int32` the `k`-th id handed out from `c` is `c + 1 + k`. -/
theorem idAfter_of_lt (c k : Nat) (h : c + 1 + k < 2 ^ 31) :
    idAfter c k = (c : Int) + 1 + (k : Int) := by
  unfold idAfter
  rw [Nat.mod_eq_of_lt (by omega), toInt32_of_lt _ h]
  push_cast
  rfl

/-- The first `n` ids handed out from `c` are pairwise distinct exactly when `n` is at most
`2^32`, the number of `uint32` values. -/
theorem idAfter_nodup_iff (c n : Nat) :
    ((List.range n).map (idAfter c)).Nodup ↔ n ≤ 2 ^ 32 := by
  rw [List.nodup_map_iff_inj_on (List.nodup_range n)]
  constructor
  · intro h
    by_contra hn
    have h0 : (0 : Nat) ∈ List.range n := List.mem_range.mpr (by omega)
    have h1 : (2 ^ 32 : Nat) ∈ List.range n := List.mem_range.mpr (by omega)
    have hm : (c + 1 + 2 ^ 32) % 2 ^ 32 = (c + 1 + 0) % 2 ^ 32 := by omega
    have heq : idAfter c 0 = idAfter c (2 ^ 32) := by
      unfold idAfter
      rw [hm]
    have := h 0 h0 (2 ^ 32) h1 heq
    omega
  · intro hn x hx y hy hxy
    rw [List.mem_range] at hx hy
    have := toInt32_inj _ _ hxy
    omega

/-- The calls, driven by the embedded `generateInTx`, return the ids handed out from the
counter: when all `n` calls have returned with a nil error after a schedule, their ids are
the first `n` ids handed out from the counter value at the start, in some order. -/
theorem concurrent_ids_perm (table : String) (data : Key → Option (List Nat))
    (n : Nat) (schedule : List Nat)
    (hdone : allSucceeded table (runConcurrent table schedule (startConcurrent data n)) = true) :
    List.Perm (concurrentIds table (runConcurrent table schedule (startConcurrent data n)))
      ((List.range n).map (idAfter (counterValue data table))) := by
  have hsum := phases_follow_schedule table schedule _ _ (summarises_start table data n)
  obtain ⟨hids, hall⟩ := summarises_ids table _ _ hsum
  rw [hall] at hdone
  rw [hids]
  obtain ⟨hlen, _, hperm, _⟩ := callsInv_run table (counterValue data table) n schedule
    (startCalls data n) (callsInv_start table data n)
  have hcount := returnedIds_length_of_all _ hdone
  have hcommits : (runCalls table schedule (startCalls data n)).shared.commits = n := by
    have h1 := hperm.length_eq
    simp only [returnedIds, List.length_map, List.length_range] at h1
    omega
  rw [hcommits] at hperm
  exact hperm

/-- From any state the calls have reached, the completion schedule makes all of them return
with a nil error. -/
theorem completion_all_succeed (table : String) (data : Key → Option (List Nat)) (n : Nat)
    (other : List Nat) :
    allSucceeded table
      (runConcurrent table (other ++ completionSchedule n) (startConcurrent data n)) = true := by
  have hsum := phases_follow_schedule table (other ++ completionSchedule n) _ _
    (summarises_start table data n)
  rw [(summarises_ids table _ _ hsum).2]
  have hl : (runCalls table other (startCalls data n)).calls.length = n := by
    rw [runCalls_length]
    simp [startCalls]
  have h := completionSchedule_allReturned table (runCalls table other (startCalls data n))
  rw [hl] at h
  simpa only [runCalls, List.foldl_append] using h

/-- After the completion schedule all calls have returned with a nil error. -/
theorem completion_from_start (table : String) (data : Key → Option (List Nat)) (n : Nat) :
    allSucceeded table
      (runConcurrent table (completionSchedule n) (startConcurrent data n)) = true := by
  simpa only [List.nil_append] using completion_all_succeed table data n []

/-- C1, amended: `n` calls of the embedded `generateInTx` for a table whose counter holds
`c` (0 when the Counter Record is absent) run concurrently against the store with
optimistic concurrency control, interleaved store operation by store operation by any
schedule.  When all calls have returned with a nil error, the ids returned are, in some
order, the `int32` values of `c + 1 .. c + n` taken modulo `2^32`; there are `n` of them;
they are pairwise distinct exactly when `n ≤ 2^32`; and they are the consecutive integers
`c + 1 .. c + n` themselves when `c + n < 2^31`.  Every interleaving can be continued so
that all calls return with a nil error. -/
theorem concurrent_ids_consecutive (table : String) (data : Key → Option (List Nat))
    (n : Nat) (schedule : List Nat)
    (hdone : allSucceeded table (runConcurrent table schedule (startConcurrent data n)) = true) :
    List.Perm (concurrentIds table (runConcurrent table schedule (startConcurrent data n)))
      ((List.range n).map (idAfter (counterValue data table))) ∧
    (concurrentIds table (runConcurrent table schedule (startConcurrent data n))).length = n ∧
    ((concurrentIds table (runConcurrent table schedule (startConcurrent data n))).Nodup ↔
      n ≤ 2 ^ 32) ∧
    (counterValue data table + n < 2 ^ 31 →
      List.Perm (concurrentIds table (runConcurrent table schedule (startConcurrent data n)))
        ((List.range n).map
          (fun (i : Nat) => (counterValue data table : Int) + 1 + (i : Int)))) ∧
    (∀ other : List Nat,
      allSucceeded table
        (runConcurrent table (other ++ completionSchedule n) (startConcurrent data n)) =
          true) := by
  have hperm := concurrent_ids_perm table data n schedule hdone
  refine ⟨hperm, ?_, ?_, ?_, completion_all_succeed table data n⟩
  · rw [hperm.length_eq]
    simp
  · rw [hperm.nodup_iff]
    exact idAfter_nodup_iff _ n
  · intro hb
    refine hperm.trans (List.Perm.of_eq ?_)
    apply List.map_congr_left
    intro i hi
    rw [List.mem_range] at hi
    exact idAfter_of_lt _ i (by omega)

/-- Witness for C1 as amended: three calls on a counter holding 41, interleaved so that
the second call commits first and the other two meet a conflict and start over: they
return 44, 42 and 43. -/
theorem concurrent_ids_consecutive_witness :
    concurrentIds "orders"
      (runConcurrent "orders" [0, 1, 2, 0, 1, 2, 0, 1, 2, 1, 0, 2, 2, 2, 2, 2, 0, 0, 0, 0]
        (startConcurrent (worldWithCounter "orders" 41).data 3)) = [44, 42, 43] ∧
    counterValue (worldWithCounter "orders" 41).data "orders" = 41 ∧
    List.Perm [44, 42, 43] [(42 : Int), 43, 44] ∧
    ([44, 42, 43] : List Int).Nodup := by
  have h := concurrent_ids_consecutive "orders" (worldWithCounter "orders" 41).data 3
    [0, 1, 2, 0, 1, 2, 0, 1, 2, 1, 0, 2, 2, 2, 2, 2, 0, 0, 0, 0] (by decide)
  have hids : concurrentIds "orders"
      (runConcurrent "orders" [0, 1, 2, 0, 1, 2, 0, 1, 2, 1, 0, 2, 2, 2, 2, 2, 0, 0, 0, 0]
        (startConcurrent (worldWithCounter "orders" 41).data 3)) = [44, 42, 43] := by decide
  have hc : counterValue (worldWithCounter "orders" 41).data "orders" = 41 := by decide
  obtain ⟨_, _, hnd, hcons, _⟩ := h
  rw [hids] at hnd hcons
  rw [hc] at hcons
  refine ⟨hids, hc, ?_, hnd.mpr (by norm_num)⟩
  simpa [List.range, List.range.loop] using hcons (by norm_num)

/-- Counterexample for C1: a single call on a counter holding `2^31 - 1` returns `-2^31`
with a nil error, which is not the counter plus one; and when `2^32 + 1` calls on a fresh
table have all returned, their ids are not pairwise distinct. -/
theorem concurrent_ids_wrap_at_int32_limit :
    (allSucceeded "orders" (runConcurrent "orders" [0, 0, 0, 0]
        (startConcurrent (worldWithCounter "orders" 2147483647).data 1)) = true ∧
      concurrentIds "orders" (runConcurrent "orders" [0, 0, 0, 0]
        (startConcurrent (worldWithCounter "orders" 2147483647).data 1)) = [-2147483648] ∧
      counterValue (worldWithCounter "orders" 2147483647).data "orders" = 2147483647 ∧
      (-2147483648 : Int) ≠ 2147483647 + 1) ∧
    (allSucceeded "orders" (runConcurrent "orders" (completionSchedule 4294967297)
        (startConcurrent emptyWorld.data 4294967297)) = true ∧
      ¬ (concurrentIds "orders" (runConcurrent "orders" (completionSchedule 4294967297)
        (startConcurrent emptyWorld.data 4294967297))).Nodup) := by
  refine ⟨by decide, completion_from_start "orders" emptyWorld.data 4294967297, ?_⟩
  intro hnd
  have hperm := concurrent_ids_perm "orders" emptyWorld.data 4294967297
    (completionSchedule 4294967297)
    (completion_from_start "orders" emptyWorld.data 4294967297)
  have := (idAfter_nodup_iff _ _).mp (hperm.nodup_iff.mp hnd)
  omega

/-- The method `addKeyToResp` leaves the forced insert mark as it is. -/
theorem addKeyToResp_forceInsert (k : keyGenerator) (f : Field) (v : String) :
    (addKeyToResp k f v).forceInsert = k.forceInsert := by
  simp only [addKeyToResp]
  split <;> rfl

/-- One successful pass of the loop body: the forced insert mark is set when the field is
synthesized and is of type int64 or date-time, and is otherwise left as it is. -/
theorem generateField_forceInsert {σ : Type} (E : Env σ) (fuel : Nat) (table : String)
    (field : Field) (k k1 : keyGenerator) (indexParts parts : List Value) (w w1 : σ)
    (h : generateField E fuel table field k indexParts w = some (.ok parts, k1, w1)) :
    k1.forceInsert =
      (k.forceInsert || ((fieldOutcome E fuel table field k w).1 &&
        (field.Type == .Int64Type || field.Type == .DateTimeType))) := by
  unfold generateField at h
  unfold fieldOutcome
  cases hauto : autoGenerate field (E.jsonGet k.document field.FieldName) with
  | true =>
    simp only [hauto] at h
    cases hget : generator.get E fuel table field w with
    | none => simp [hget] at h
    | some r =>
      obtain ⟨res, w2⟩ := r
      cases res with
      | error err => simp [hget] at h
      | ok jv =>
        obtain ⟨jsonVal, v⟩ := jv
        simp only [hget] at h
        cases hset : setKeyInDoc E k field jsonVal with
        | mk k2 serr =>
          simp only [hset] at h
          cases serr with
          | some e => simp at h
          | none =>
            simp only [Option.some.injEq, Prod.mk.injEq] at h
            obtain ⟨_, hk, _⟩ := h
            have hk2 : k2.forceInsert = k.forceInsert := by
              simp only [setKeyInDoc, Prod.mk.injEq] at hset
              rw [← hset.1]
            subst hk
            rw [addKeyToResp_forceInsert]
            by_cases ht : field.Type = .Int64Type ∨ field.Type = .DateTimeType
            · rw [if_pos ht]
              rcases ht with ht | ht <;> simp [ht]
            · rw [if_neg ht]
              have h1 : field.Type ≠ .Int64Type := fun e => ht (Or.inl e)
              have h2 : field.Type ≠ .DateTimeType := fun e => ht (Or.inr e)
              simp [h1, h2, hk2]
  | false =>
    simp only [hauto] at h
    cases herr : (E.jsonGet k.document field.FieldName).err with
    | some e => simp [herr] at h
    | none =>
      simp only [herr] at h
      cases hv : E.NewValue field.Type (E.jsonGet k.document field.FieldName).value with
      | error e => simp [hv] at h
      | ok v =>
        simp only [hv, Option.some.injEq, Prod.mk.injEq] at h
        obtain ⟨_, hk, _⟩ := h
        subst hk
        rw [addKeyToResp_forceInsert]
        simp

/-- The loop of `generate`, when it succeeds: the forced insert mark is set when it was set
before or some field of type int64 or date-time was synthesized. -/
theorem generateLoop_forceInsert {σ : Type} (E : Env σ) (fuel : Nat) (table : String) :
    ∀ (fields : List Field) (k k1 : keyGenerator) (indexParts parts : List Value) (w w1 : σ),
      generateLoop E fuel table fields k indexParts w = some (.ok parts, k1, w1) →
      k1.forceInsert =
        (k.forceInsert ||
          (fields.zip (fieldOutcomes E fuel table fields k indexParts w)).any
            (fun x => x.2.1 && (x.1.Type == .Int64Type || x.1.Type == .DateTimeType))) := by
  intro fields
  induction fields with
  | nil =>
    intro k k1 indexParts parts w w1 h
    simp only [generateLoop, Option.some.injEq, Prod.mk.injEq] at h
    obtain ⟨_, hk, _⟩ := h
    subst hk
    simp [fieldOutcomes]
  | cons f rest ih =>
    intro k k1 indexParts parts w w1 h
    simp only [generateLoop] at h
    cases hf : generateField E fuel table f k indexParts w with
    | none => simp [hf] at h
    | some r =>
      obtain ⟨res, k2, w2⟩ := r
      cases res with
      | error err => simp [hf] at h
      | ok parts2 =>
        simp only [hf] at h
        have h1 := ih k2 k1 parts2 parts w2 w1 h
        have h2 := generateField_forceInsert E fuel table f k k2 indexParts parts2 w w2 hf
        simp only [fieldOutcomes, hf, List.zip_cons_cons, List.any_cons]
        rw [h1, h2, Bool.or_assoc]

/-- C11: after a successful `generate` on a fresh `keyGenerator`, `forceInsert` is true
exactly when some field of type int64 or date-time had its value synthesized; so it is
still false when no field of those two types was synthesized, whatever was supplied for
fields of those types and whatever string, UUID, byte or int32 fields were synthesized. -/
theorem forced_insert_flag {σ : Type} (E : Env σ) (fuel : Nat) (doc : String)
    (index : Index) (table : String) (w w1 : σ) (key : Key) (k1 : keyGenerator)
    (hgen : generate E fuel (newKeyGenerator doc index) table w = some (.ok key, k1, w1)) :
    ((∃ x ∈ index.Fields.zip
          (fieldOutcomes E fuel table index.Fields (newKeyGenerator doc index) [] w),
        x.2.1 = true ∧ (x.1.Type = .Int64Type ∨ x.1.Type = .DateTimeType)) →
      k1.forceInsert = true) ∧
    ((∀ x ∈ index.Fields.zip
          (fieldOutcomes E fuel table index.Fields (newKeyGenerator doc index) [] w),
        x.2.1 = true → x.1.Type ≠ .Int64Type ∧ x.1.Type ≠ .DateTimeType) →
      k1.forceInsert = false) ∧
    (newKeyGenerator doc index).forceInsert = false := by
  obtain ⟨parts, w2, hloop⟩ := generate_ok_loop E fuel _ k1 table w w1 key hgen
  have h := generateLoop_forceInsert E fuel table _ _ k1 [] parts w w2 hloop
  simp only [newKeyGenerator, Bool.false_or] at h
  refine ⟨?_, ?_, rfl⟩
  · rintro ⟨x, hx, hsyn, htp⟩
    rw [h, List.any_eq_true]
    refine ⟨x, hx, ?_⟩
    rcases htp with htp | htp <;> simp [hsyn, htp]
  · intro hall
    rw [h, List.any_eq_false]
    intro x hx
    cases hsyn : x.2.1 with
    | false => simp
    | true =>
      obtain ⟨h1, h2⟩ := hall x hx hsyn
      simp [h1, h2]

set_option maxRecDepth 100000 in
/-- Witness for C11: the document `{}` with the auto-generated int64 field `id`: the value
is the clock reading in nanoseconds and the flag is set; and a document that supplies the
int64 field `id` and the date-time field `at`, with synthesized string, UUID, byte and int32
fields: the flag is not set. -/
theorem forced_insert_flag_witness :
    (∃ key k1 w1,
      generate refEnv 1 (newKeyGenerator "\x7b\x7d" idIndex) "orders" clockWorld =
        some (.ok key, k1, w1) ∧
      k1.document = "\x7b\"id\":1667580000123456789\x7d" ∧
      k1.forceInsert = true) ∧
    (∃ key k1 w1,
      generate refEnv 1
        (newKeyGenerator "\x7b\"id\":7,\"at\":\"2022-11-04T16:40:00Z\"\x7d" unforcedIndex)
        "orders" uuidWorld = some (.ok key, k1, w1) ∧
      k1.forceInsert = false) := by
  constructor
  · have hgen : generate refEnv 1 (newKeyGenerator "\x7b\x7d" idIndex) "orders" clockWorld =
        some (.ok (NewKey "orders" [.IntValue 1667580000123456789]),
          { document := "\x7b\"id\":1667580000123456789\x7d",
            keysForResp := "\"id\":1667580000123456789",
            index := idIndex, forceInsert := true },
          { clockWorld with
            timeCount := 1,
            encoded := [("orders", [.IntValue 1667580000123456789])] }) := by
      rfl
    have h := forced_insert_flag refEnv 1 _ idIndex "orders" clockWorld _ _ _ hgen
    exact ⟨_, _, _, hgen, rfl,
      h.1 ⟨(⟨"id", .Int64Type, true⟩, (true, "1667580000123456789")), by decide, rfl,
        Or.inl rfl⟩⟩
  · obtain ⟨key, k1, w1, hgen⟩ : ∃ key k1 w1, generate refEnv 1
        (newKeyGenerator "\x7b\"id\":7,\"at\":\"2022-11-04T16:40:00Z\"\x7d" unforcedIndex)
        "orders" uuidWorld = some (.ok key, k1, w1) := ⟨_, _, _, rfl⟩
    have h := forced_insert_flag refEnv 1 _ unforcedIndex "orders" uuidWorld _ _ _ hgen
    exact ⟨key, k1, w1, hgen, h.2.1 (by decide)⟩

/-- Counterexample for C12: for the UUID with the raw bytes `rawUuidBytes`, which the UUID
source hands out in its string form, `generator.get` on a byte field returns as typed
value the 36 bytes of the string form, not the 16 raw bytes. -/
theorem byte_value_is_uuid_text_not_raw_bytes :
    uuidWorld.uuidAt uuidWorld.uuidCount = uuidString rawUuidBytes ∧
    (generator.get refEnv 0 "orders" byteField uuidWorld).map (fun r => r.1) =
      some (.ok ("NmJhN2I4MTAtOWRhZC0xMWQxLTgwYjQtMDBjMDRmZDQzMGM4",
        .BytesValue "6ba7b810-9dad-11d1-80b4-00c04fd430c8")) ∧
    ("6ba7b810-9dad-11d1-80b4-00c04fd430c8" : String).length = 36 ∧
    rawUuidBytes.length = 16 ∧
    Value.BytesValue "6ba7b810-9dad-11d1-80b4-00c04fd430c8" ≠
      Value.BytesValue (bytesAsText rawUuidBytes) := by
  refine ⟨by decide, by rfl, by decide, by decide, by decide⟩

/-- C12, amended: on a field of byte type `generator.get` takes a fresh UUID from
`uuid.NewUUIDAsString` and returns, with a nil error and whatever the fuel, as typed value
the bytes of the string form of that UUID, and as display bytes the standard base64
encoding of exactly those value bytes; the only effect on the world is that of the UUID
source. -/
theorem byte_field_synthesis {σ : Type} (E : Env σ) (fuel : Nat) (table : String)
    (field : Field) (w : σ) (hbyte : field.Type = .ByteType) :
    generator.get E fuel table field w =
      some (.ok (E.base64Encode (E.NewUUIDAsString w).1,
        .BytesValue (E.NewUUIDAsString w).1), (E.NewUUIDAsString w).2) := by
  simp only [generator.get, hbyte]

/-- Witness for C12 as amended: on the reference environment the byte field gets the 36
bytes of the string form of the UUID and their base64 text. -/
theorem byte_field_synthesis_witness :
    generator.get refEnv 0 "orders" byteField uuidWorld =
      some (.ok ("NmJhN2I4MTAtOWRhZC0xMWQxLTgwYjQtMDBjMDRmZDQzMGM4",
        .BytesValue "6ba7b810-9dad-11d1-80b4-00c04fd430c8"),
        { uuidWorld with uuidCount := 1 }) :=
  (byte_field_synthesis refEnv 0 "orders" byteField uuidWorld rfl).trans (by rfl)

end Tigris
